import Mathlib

/-!
# hierview: the command-line entry point `main` (src/main.cpp)

A shallow embedding of `main` together with the library semantics it runs on:

* the stream extraction behind `po::value<fs::path>`: `boost::lexical_cast`
  over `operator>>` of `std::filesystem::path`, which reads through
  `std::quoted`;
* Boost.Program_options, in the releases where an option may carry several
  long names: `option_description::set_names`, `match` and `key`,
  `options_description::find_nothrow`, `detail::cmdline::run` with its style
  parsers and `finish_option` under the default `unix_style`, `store` with the
  parsing of the two value semantics, and `notify`;
* the two `try` blocks of `main`, with the viewer (module `window`, not among
  the sources) as a parameter.

A C++ `std::string` is a list of characters; every character the code inspects
(`-`, `=`, `,`, `*`, the quote, the backslash, white space) is ASCII.  Streams
are lists of the chunks written to them.  The two loops of `cmdline::run` that
consume a varying number of items per round are bounded by a fuel argument set
to the number of items; `run_total` shows that the bound is never reached.
-/

namespace Hierview

/-- A C++ `std::string`. -/
abbrev Str := List Char

/-! ## Stream extraction: `lexical_cast<fs::path>` -/

/-- The delimiter of `std::quoted`, the double quote. -/
def quote_delim : Char := Char.ofNat 34

/-- The escape character of `std::quoted`, the backslash. -/
def quote_escape : Char := Char.ofNat 92

/-- The classic locale's `isspace`: space, `\t`, `\n`, `\v`, `\f`, `\r`. -/
def isspace (c : Char) : Bool :=
  c.toNat == 32 || (9 ≤ c.toNat && c.toNat ≤ 13)

/-- The extraction `is >> s` for a `std::string` with `skipws` unset (as
`lexical_cast` sets the stream up): characters are taken up to the first white
space or the end of input; extracting nothing sets `failbit` (`none`).  The
result is the string read and the unread rest of the stream. -/
def extract_word (s : Str) : Option (Str × Str) :=
  let w := s.takeWhile (fun c => !isspace c)
  if w.isEmpty then none else some (w, s.dropWhile (fun c => !isspace c))

/-- The loop of `operator>>` for `std::quoted` after the opening delimiter:
characters are appended until an unescaped delimiter; an escape is dropped and
the character after it appended; running out of input leaves the stream failed
(`none`). -/
def extract_quoted_body : Str → Str → Option (Str × Str)
  | [], _ => none
  | c :: cs, acc =>
    if c = quote_escape then
      match cs with
      | [] => none
      | c2 :: cs2 => extract_quoted_body cs2 (acc ++ [c2])
    else if c = quote_delim then some (acc, cs)
    else extract_quoted_body cs (acc ++ [c])

/-- The extraction `is >> std::quoted(tmp)`: one character is read; when it is
not the delimiter it is put back and `is >> tmp` runs, otherwise the quoted
body is read. -/
def extract_quoted (s : Str) : Option (Str × Str) :=
  match s with
  | [] => none
  | c :: cs =>
    if c = quote_delim then extract_quoted_body cs [] else extract_word (c :: cs)

/-- The conversion `boost::lexical_cast<fs::path>(s)`: `stream >> output` must
succeed, where `operator>>` of `std::filesystem::path` is
`is >> std::quoted(tmp); p = tmp`, and the stream must then be at its end
(`stream.get() == eof`); `none` is `bad_lexical_cast`. -/
def lexical_cast_path (s : Str) : Option Str :=
  match extract_quoted s with
  | some (p, []) => some p
  | _ => none

/-! ## `boost::program_options`: option descriptions -/

/-- The contents of a `boost::any` as this program stores them: empty, the
`std::string` of an `untyped_value`, or the `fs::path` of the typed value. -/
inductive any where
  | empty
  | string (s : Str)
  | path (p : Str)
  deriving DecidableEq, Repr

/-- The two `value_semantic` classes `main` instantiates: `untyped_value` (of
the description-only overload of `add_options()`, built with
`zero_tokens = true`) and `typed_value<fs::path>` with its default value. -/
inductive value_semantic where
  | untyped_value (zero_tokens : Bool)
  | typed_value_path (default_value : any)
  deriving DecidableEq, Repr

/-- The function `value_semantic::min_tokens`. -/
def value_semantic.min_tokens : value_semantic → Nat
  | .untyped_value z => if z then 0 else 1
  | .typed_value_path _ => 1

/-- The function `value_semantic::max_tokens`. -/
def value_semantic.max_tokens : value_semantic → Nat
  | .untyped_value z => if z then 0 else 1
  | .typed_value_path _ => 1

/-- The function `value_semantic::apply_default`: `untyped_value` has none, a typed value
hands out its default when one was set. -/
def value_semantic.apply_default : value_semantic → Option any
  | .untyped_value _ => none
  | .typed_value_path d => if d = any.empty then none else some d

/-- An `option_description`: the long names, the short name (with its dash, or
empty) and the semantic. -/
structure option_description where
  long_names : List Str
  short_name : Str
  semantic : value_semantic
  deriving DecidableEq, Repr

/-- Splitting at commas, as the `std::getline(iss, name, ',')` loop of
`set_names` does: a trailing comma yields no further (empty) name. -/
def split_names : Str → Str → List Str
  | [], cur => if cur.isEmpty then [] else [cur]
  | c :: cs, cur => if c = ',' then cur :: split_names cs [] else split_names cs (cur ++ [c])

/-- The function `option_description::set_names`: the names are split at commas; only when
there are several and the last one has length 1 is that one the short name. -/
def set_names (names : Str) (semantic : value_semantic) : option_description :=
  let long_names := split_names names []
  if 1 < long_names.length then
    match long_names.getLast? with
    | some last_name =>
      if last_name.length = 1 then
        let rest := long_names.dropLast
        { long_names := if rest.length = 1 ∧ rest.head? = some [] then [] else rest,
          short_name := '-' :: last_name,
          semantic := semantic }
      else { long_names := long_names, short_name := [], semantic := semantic }
    | none => { long_names := long_names, short_name := [], semantic := semantic }
  else { long_names := long_names, short_name := [], semantic := semantic }

/-- The `desc` of `main`: `("help,-h", "Print help message")` and
`("path", po::value<fs::path>(&path_in)->default_value(""), "Input file path")`. -/
def desc : List option_description :=
  [ set_names "help,-h".toList (.untyped_value true),
    set_names "path".toList (.typed_value_path (.path [])) ]

/-- The result of `option_description::match`. -/
inductive match_result where
  | no_match
  | full_match
  | approximate_match
  deriving DecidableEq, Repr

/-- The helper `tolower_` applied when a case-insensitive style is active. -/
def tolower_ (s : Str) : Str := s.map Char.toLower

/-- The loop of `option_description::match` over the long names, carrying
`result`; a full match breaks out of the loop. -/
def match_long_names (local_option : Str) (approx long_ignore_case : Bool) :
    List Str → match_result → match_result
  | [], result => result
  | name :: names, result =>
    let local_long_name := if long_ignore_case then tolower_ name else name
    if local_long_name.isEmpty then
      match_long_names local_option approx long_ignore_case names result
    else
      let result :=
        if result = .no_match ∧ local_long_name.getLast? = some '*' ∧
            local_long_name.dropLast.isPrefixOf local_option then
          match_result.approximate_match
        else result
      if local_long_name = local_option then .full_match
      else
        let result :=
          if approx ∧ local_option.isPrefixOf local_long_name then
            match_result.approximate_match
          else result
        match_long_names local_option approx long_ignore_case names result

/-- The function `option_description::match`. -/
def option_description.match_name (d : option_description) (option : Str)
    (approx long_ignore_case short_ignore_case : Bool) : match_result :=
  let local_option := if long_ignore_case then tolower_ option else option
  let result := match_long_names local_option approx long_ignore_case d.long_names .no_match
  if result ≠ .full_match then
    let local_short_name := if short_ignore_case then tolower_ d.short_name else d.short_name
    if local_short_name = local_option then .full_match else result
  else result

/-- The function `option_description::key`: the first long name (the option as given when
that name holds a `*`), or the short name when there is no long name. -/
def option_description.key (d : option_description) (option : Str) : Str :=
  match d.long_names with
  | first_long_name :: _ => if '*' ∈ first_long_name then option else first_long_name
  | [] => d.short_name

/-- The exceptions derived from `po::error` that parsing and storing raise,
each with the option (or token) it is about where the library records one.
`missing_parameter`, `extra_parameter` and `empty_adjacent_parameter` are the
kinds of an invalid command line; `multiple_values_not_allowed`,
`at_least_one_value_required` and `invalid_option_value` those of a
`validation_error`. -/
inductive po_error where
  | unknown_option (original_token : Str)
  | ambiguous_option (original_token : Str) (alternatives : List Str)
  | missing_parameter (original_token : Str)
  | extra_parameter (original_token : Str)
  | empty_adjacent_parameter (option_name : Str)
  | too_many_positional_options_error
  | multiple_occurrences (option_name : Str)
  | multiple_values (option_name : Str)
  | multiple_values_not_allowed (option_name : Str)
  | at_least_one_value_required (option_name : Str)
  | invalid_option_value (option_name : Str) (value : Str)
  deriving DecidableEq, Repr

/-- The text of `e.what()`: the library's message template of each error, the
placeholder for the option filled with the token or option name the error
carries (the library's canonical spelling of that name is not reproduced). -/
def po_error.what : po_error → Str
  | .unknown_option t => "unrecognised option '".toList ++ t ++ "'".toList
  | .ambiguous_option t _ => "option '".toList ++ t ++ "' is ambiguous".toList
  | .missing_parameter t =>
    "the required argument for option '".toList ++ t ++ "' is missing".toList
  | .extra_parameter t => "option '".toList ++ t ++ "' does not take any arguments".toList
  | .empty_adjacent_parameter n =>
    "the argument for option '".toList ++ n ++
      "' should follow immediately after the equal sign".toList
  | .too_many_positional_options_error =>
    "too many positional options have been specified on the command line".toList
  | .multiple_occurrences n =>
    "option '".toList ++ n ++ "' cannot be specified more than once".toList
  | .multiple_values n => "option '".toList ++ n ++ "' only takes a single argument".toList
  | .multiple_values_not_allowed n =>
    "option '".toList ++ n ++ "' only takes a single argument".toList
  | .at_least_one_value_required n =>
    "option '".toList ++ n ++ "' requires at least one argument".toList
  | .invalid_option_value n v =>
    "the argument ('".toList ++ v ++ "') for option '".toList ++ n ++ "' is invalid".toList

/-- The state of the loop of `options_description::find_nothrow`. -/
structure find_state where
  found : Option option_description
  had_full_match : Bool
  approximate_matches : List Str
  full_matches : List Str

/-- The loop of `options_description::find_nothrow` over the options. -/
def find_loop (name : Str) (approx long_ignore_case short_ignore_case : Bool) :
    List option_description → find_state → find_state
  | [], st => st
  | d :: ds, st =>
    match d.match_name name approx long_ignore_case short_ignore_case with
    | .no_match => find_loop name approx long_ignore_case short_ignore_case ds st
    | .full_match =>
      find_loop name approx long_ignore_case short_ignore_case ds
        { st with full_matches := st.full_matches ++ [d.key name],
                  found := some d, had_full_match := true }
    | .approximate_match =>
      find_loop name approx long_ignore_case short_ignore_case ds
        { st with approximate_matches := st.approximate_matches ++ [d.key name],
                  found := if st.had_full_match then st.found else some d }

/-- The function `options_description::find_nothrow`: several full matches, or no full and
several approximate matches, raise `ambiguous_option`; otherwise the option
found, if any. -/
def find_nothrow (options : List option_description) (name : Str)
    (approx long_ignore_case short_ignore_case : Bool) :
    Except po_error (Option option_description) :=
  let st := find_loop name approx long_ignore_case short_ignore_case options
    { found := none, had_full_match := false, approximate_matches := [], full_matches := [] }
  if 1 < st.full_matches.length then .error (.ambiguous_option name st.full_matches)
  else if st.full_matches.isEmpty ∧ 1 < st.approximate_matches.length then
    .error (.ambiguous_option name st.approximate_matches)
  else .ok st.found

/-- The function `options_description::find`: as `find_nothrow`, raising `unknown_option`
when nothing is found. -/
def find (options : List option_description) (name : Str)
    (approx long_ignore_case short_ignore_case : Bool) : Except po_error option_description :=
  match find_nothrow options name approx long_ignore_case short_ignore_case with
  | .error e => .error e
  | .ok none => .error (.unknown_option name)
  | .ok (some d) => .ok d

/-! ## `boost::program_options::detail::cmdline` -/

/-- The flags of `command_line_style` that the modelled members of `cmdline`
consult. -/
structure style_t where
  allow_sticky : Bool
  allow_guessing : Bool
  long_case_insensitive : Bool
  short_case_insensitive : Bool

/-- The style in force: `main` sets none, so `cmdline` takes `default_style`,
which is `unix_style`: long options, short options with a dash, sticky short
options and guessing are on; the slash form, disguised long options and case
insensitivity are off. -/
def m_style : style_t :=
  { allow_sticky := true, allow_guessing := true,
    long_case_insensitive := false, short_case_insensitive := false }

/-- The value `INT_MAX`, the position key marking tokens after `--`. -/
def INT_MAX : Int := 2147483647

/-- A parsed `option` (`basic_option<char>`). -/
structure basic_option where
  string_key : Str
  position_key : Int
  value : List Str
  original_tokens : List Str
  deriving DecidableEq, Repr

/-- A default-constructed `option`: no key, `position_key = -1`. -/
def basic_option.new : basic_option :=
  { string_key := [], position_key := -1, value := [], original_tokens := [] }

/-- The split of a long option's body at the first `=` of the token:
`tok.find('=')`, with `name = tok.substr(2, p-2)` and
`adjacent = tok.substr(p+1)`; `none` when the token has no `=`. -/
def split_adjacent : Str → Option (Str × Str)
  | [] => none
  | c :: cs =>
    if c = '=' then some ([], cs)
    else match split_adjacent cs with
      | some (name, adjacent) => some (c :: name, adjacent)
      | none => none

/-- The function `cmdline::parse_long_option`: a token of at least three characters that
starts with `--`; returns the options parsed and the remaining arguments. -/
def parse_long_option (args : List Str) : Except po_error (List basic_option × List Str) :=
  match args with
  | [] => .ok ([], [])
  | tok :: rest =>
    match tok with
    | c0 :: c1 :: c2 :: cs =>
      if c0 = '-' ∧ c1 = '-' then
        match split_adjacent (c2 :: cs) with
        | some (name, adjacent) =>
          if adjacent.isEmpty then .error (.empty_adjacent_parameter name)
          else .ok ([{ basic_option.new with
                        string_key := name, value := [adjacent], original_tokens := [tok] }],
                    rest)
        | none =>
          .ok ([{ basic_option.new with string_key := c2 :: cs, original_tokens := [tok] }],
               rest)
      else .ok ([], args)
    | _ => .ok ([], args)

/-- The loop of `cmdline::parse_short_option` over one token, by the
characters `adjacent` still to read: while the option named is known, takes no
token and characters remain, the remainder is a further (sticky) option. -/
def parse_short_loop (options : List option_description) (tok : Str) :
    Str → Str → List basic_option → Except po_error (List basic_option)
  | [], name, result =>
    match find_nothrow options name false false m_style.short_case_insensitive with
    | .error e => .error e
    | .ok _ =>
      .ok (result ++ [{ basic_option.new with string_key := name, original_tokens := [tok] }])
  | c :: cs, name, result =>
    match find_nothrow options name false false m_style.short_case_insensitive with
    | .error e => .error e
    | .ok d =>
      if d.isSome ∧ m_style.allow_sticky ∧
          (d.map fun x => x.semantic.max_tokens) = some 0 then
        parse_short_loop options tok cs ['-', c]
          (result ++ [{ basic_option.new with string_key := name }])
      else
        .ok (result ++ [{ basic_option.new with
                            string_key := name, value := [c :: cs],
                            original_tokens := [tok] }])

/-- The function `cmdline::parse_short_option`: a token of at least two characters that
starts with one dash; `name = tok.substr(0,2)`, `adjacent = tok.substr(2)`. -/
def parse_short_option (options : List option_description) (args : List Str) :
    Except po_error (List basic_option × List Str) :=
  match args with
  | [] => .ok ([], [])
  | tok :: rest =>
    match tok with
    | c0 :: c1 :: cs =>
      if c0 = '-' ∧ c1 ≠ '-' then
        match parse_short_loop options tok cs [c0, c1] [] with
        | .error e => .error e
        | .ok result => .ok (result, rest)
      else .ok ([], args)
    | _ => .ok ([], args)

/-- The function `cmdline::parse_terminator`: after the token `--` every further token is a
positional option marked with `position_key = INT_MAX`. -/
def parse_terminator (args : List Str) : Except po_error (List basic_option × List Str) :=
  match args with
  | [] => .ok ([], [])
  | tok :: rest =>
    if tok = ['-', '-'] then
      .ok (rest.map fun a =>
            { basic_option.new with
                value := [a], original_tokens := [a], position_key := INT_MAX }, [])
    else .ok ([], args)

/-- A style parser: it may consume tokens from the front of the arguments and
returns the options it made of them. -/
abbrev style_parser_fn := List Str → Except po_error (List basic_option × List Str)

/-- The `style_parsers` that `cmdline::run` assembles under `unix_style`, in
its order: long options, short options with a dash, the terminator. -/
def style_parsers (options : List option_description) : List style_parser_fn :=
  [parse_long_option, parse_short_option options, parse_terminator]

/-- The loop of `finish_option` asking each style parser in turn whether the
next token is syntactically an option (`followed_option`). -/
def followed_option : List style_parser_fn → Str → Except po_error (List basic_option)
  | [], _ => .ok []
  | p :: ps, next_token =>
    match p [next_token] with
    | .error e => .error e
    | .ok (r, _) => if r.isEmpty then followed_option ps next_token else .ok r

/-- The loop of `finish_option` that moves up to `min_tokens` of the following
tokens into the option's values; a token that looks like an option and is
found in the description (looked up as it stands) is a missing parameter. -/
def grab_tokens (options : List option_description) :
    Nat → basic_option → List Str → Except po_error (basic_option × List Str)
  | 0, opt, other_tokens => .ok (opt, other_tokens)
  | _ + 1, opt, [] => .ok (opt, [])
  | n + 1, opt, t :: ts =>
    match followed_option (style_parsers options) t with
    | .error e => .error e
    | .ok followed =>
      let take : Except po_error (basic_option × List Str) :=
        grab_tokens options n
          { opt with value := opt.value ++ [t], original_tokens := opt.original_tokens ++ [t] }
          ts
      if followed.isEmpty then take
      else
        match find_nothrow options t m_style.allow_guessing m_style.long_case_insensitive
            m_style.short_case_insensitive with
        | .error e => .error e
        | .ok (some _) => .error (.missing_parameter t)
        | .ok none => take

/-- The function `cmdline::finish_option`: the option is looked up (unregistered options are
not allowed), its key made canonical, and the tokens it requires taken from
those that follow. -/
def finish_option (options : List option_description) (opt : basic_option)
    (other_tokens : List Str) : Except po_error (basic_option × List Str) :=
  if opt.string_key.isEmpty then .ok (opt, other_tokens)
  else
    let original_token := opt.original_tokens.headD opt.string_key
    match find_nothrow options opt.string_key m_style.allow_guessing
        m_style.long_case_insensitive m_style.short_case_insensitive with
    | .error e => .error e
    | .ok none => .error (.unknown_option original_token)
    | .ok (some d) =>
      let opt := { opt with string_key := d.key opt.string_key }
      let min_tokens := d.semantic.min_tokens
      let max_tokens := d.semantic.max_tokens
      let present_tokens := opt.value.length + other_tokens.length
      if min_tokens ≤ present_tokens then
        if ¬ opt.value.isEmpty ∧ max_tokens = 0 then .error (.extra_parameter original_token)
        else
          let min_tokens :=
            if opt.value.length ≤ min_tokens then min_tokens - opt.value.length else 0
          grab_tokens options min_tokens opt other_tokens
      else .error (.missing_parameter original_token)

/-- The part of `cmdline::run` that finishes the options one style parser
returned: all but the last against an empty token list, the last against the
unparsed arguments. -/
def finish_options (options : List option_description) :
    List basic_option → List Str → Except po_error (List basic_option × List Str)
  | [], args => .ok ([], args)
  | [o], args =>
    match finish_option options o args with
    | .error e => .error e
    | .ok (o, args) => .ok ([o], args)
  | o :: o2 :: os, args =>
    match finish_option options o [] with
    | .error e => .error e
    | .ok (o, _) =>
      match finish_options options (o2 :: os) args with
      | .error e => .error e
      | .ok (os, args) => .ok (o :: os, args)

/-- The inner loop of `cmdline::run` over the style parsers for the current
arguments (`current_size` is their number on entry to each round): the result
is whether a parser consumed something (`ok`), the arguments and the options
so far. -/
def try_style_parsers (options : List option_description) :
    List style_parser_fn → List Str → List basic_option →
      Except po_error (Bool × List Str × List basic_option)
  | [], args, result => .ok (false, args, result)
  | p :: ps, args, result =>
    match p args with
    | .error e => .error e
    | .ok (next, args1) =>
      match (if next.isEmpty then .ok ([], args1) else finish_options options next args1) with
      | .error e => .error e
      | .ok (next, args2) =>
        if args2.length ≠ args.length then .ok (true, args2, result ++ next)
        else try_style_parsers options ps args2 (result ++ next)

/-- The outer loop `while(!args.empty())` of `cmdline::run`; a token no style
parser takes is a positional option.  The loop is bounded by `fuel`; `none`
means the bound was too small. -/
def run_loop (options : List option_description) :
    Nat → List Str → List basic_option → Option (Except po_error (List basic_option))
  | _, [], result => some (.ok result)
  | 0, _ :: _, _ => none
  | fuel + 1, tok :: rest, result =>
    match try_style_parsers options (style_parsers options) (tok :: rest) result with
    | .error e => some (.error e)
    | .ok (true, args, result) => run_loop options fuel args result
    | .ok (false, args, result) =>
      run_loop options fuel args.tail
        (result ++ [{ basic_option.new with
                        value := args.take 1, original_tokens := args.take 1 }])

/-- The inner loop of the second pass of `cmdline::run`: an option that may
take more tokens is given the values of the positional options that follow it,
up to `can_take_more`, stopping at a keyed option or at one from after `--`. -/
def take_more : Nat → basic_option → List basic_option → basic_option × List basic_option
  | 0, opt, rest => (opt, rest)
  | _ + 1, opt, [] => (opt, [])
  | n + 1, opt, opt2 :: rest =>
    if ¬ opt2.string_key.isEmpty then (opt, opt2 :: rest)
    else if opt2.position_key = INT_MAX then (opt, opt2 :: rest)
    else
      take_more n
        { opt with value := opt.value ++ opt2.value.take 1,
                   original_tokens := opt.original_tokens ++ opt2.original_tokens.take 1 }
        rest

/-- The second pass of `cmdline::run` (building `result2`), bounded by `fuel`
as `run_loop` is. -/
def multitoken_pass (options : List option_description) :
    Nat → List basic_option → Option (Except po_error (List basic_option))
  | _, [] => some (.ok [])
  | 0, _ :: _ => none
  | fuel + 1, opt :: rest =>
    let continue_with (o : basic_option) (rest : List basic_option) :
        Option (Except po_error (List basic_option)) :=
      match multitoken_pass options fuel rest with
      | none => none
      | some (.error e) => some (.error e)
      | some (.ok r) => some (.ok (o :: r))
    if opt.string_key.isEmpty then continue_with opt rest
    else
      match find_nothrow options opt.string_key m_style.allow_guessing
          m_style.long_case_insensitive m_style.short_case_insensitive with
      | .error e => some (.error e)
      | .ok none => continue_with opt rest
      | .ok (some xd) =>
        let min_tokens := xd.semantic.min_tokens
        let max_tokens := xd.semantic.max_tokens
        if min_tokens < max_tokens ∧ opt.value.length < max_tokens then
          let r := take_more (max_tokens - opt.value.length) opt rest
          continue_with r.1 r.2
        else continue_with opt rest

/-- The loop of `cmdline::run` giving each option without a key the next
position key. -/
def assign_position_keys : Int → List basic_option → List basic_option
  | _, [] => []
  | position_key, opt :: rest =>
    if opt.string_key.isEmpty then
      { opt with position_key := position_key } :: assign_position_keys (position_key + 1) rest
    else opt :: assign_position_keys position_key rest

/-- A `positional_options_description`: the names of the counted positions and
the name of the unlimited trailing positions (empty when there is none). -/
structure positional_options_description where
  m_names : List Str
  m_trailing : Str

/-- The function `positional_options_description::add`: `max_count = -1` names the trailing
positions, any other count appends that many positions. -/
def positional_options_description.add (p : positional_options_description) (name : Str)
    (max_count : Int) : positional_options_description :=
  if max_count = -1 then { p with m_trailing := name }
  else { p with m_names := p.m_names ++ List.replicate max_count.toNat name }

/-- The function `positional_options_description::max_total_count`; `none` stands for the
unlimited count. -/
def positional_options_description.max_total_count (p : positional_options_description) :
    Option Nat :=
  if p.m_trailing.isEmpty then some p.m_names.length else none

/-- The function `positional_options_description::name_for_position`. -/
def positional_options_description.name_for_position (p : positional_options_description)
    (position : Nat) : Str :=
  (p.m_names.get? position).getD p.m_trailing

/-- The `pos_desc` of `main`: `pos_desc.add("path", 1)`. -/
def pos_desc : positional_options_description :=
  positional_options_description.add { m_names := [], m_trailing := [] } "path".toList 1

/-- The loop of `cmdline::run` naming the positional options after
`m_positional`; one more than `max_total_count` raises
`too_many_positional_options_error`. -/
def name_positionals (m_positional : positional_options_description) :
    Nat → List basic_option → Except po_error (List basic_option)
  | _, [] => .ok []
  | position, opt :: rest =>
    if opt.position_key ≠ -1 then
      if (match m_positional.max_total_count with
          | some n => decide (n ≤ position)
          | none => false) then
        .error .too_many_positional_options_error
      else
        match name_positionals m_positional (position + 1) rest with
        | .error e => .error e
        | .ok r =>
          .ok ({ opt with string_key := m_positional.name_for_position position } :: r)
    else
      match name_positionals m_positional position rest with
      | .error e => .error e
      | .ok r => .ok (opt :: r)

/-- The function `cmdline::run` on the arguments after the program name, as
`command_line_parser(argc, argv).options(desc).positional(pos_desc).run()`
calls it.  (The closing loop setting each option's `case_insensitive` flag is
left out; nothing reads the flag.) -/
def run (options : List option_description) (m_positional : positional_options_description)
    (args : List Str) : Option (Except po_error (List basic_option)) :=
  match run_loop options args.length args [] with
  | none => none
  | some (.error e) => some (.error e)
  | some (.ok result) =>
    match multitoken_pass options result.length result with
    | none => none
    | some (.error e) => some (.error e)
    | some (.ok result) =>
      some (name_positionals m_positional 0 (assign_position_keys 0 result))

/-! ## `store`, `notify` and the variables map -/

/-- A `variable_value`: the stored `boost::any` and the `defaulted` mark. -/
structure variable_value where
  v : any
  m_defaulted : Bool
  deriving DecidableEq, Repr

/-- A `variables_map`: the `std::map` from option name to value, and the set
`m_final` of names whose value an earlier `store` fixed. -/
structure variables_map where
  m : List (Str × variable_value)
  m_final : List Str
  deriving DecidableEq, Repr

/-- The lookup in the `std::map`. -/
def map_find : List (Str × variable_value) → Str → Option variable_value
  | [], _ => none
  | (k, v) :: m, key => if k = key then some v else map_find m key

/-- The assignment `m[key] = v`. -/
def map_assign : List (Str × variable_value) → Str → variable_value →
    List (Str × variable_value)
  | [], key, v => [(key, v)]
  | (k, v0) :: m, key, v =>
    if k = key then (k, v) :: m else (k, v0) :: map_assign m key v

/-- The function `variables_map::count`. -/
def variables_map.count (xm : variables_map) (key : Str) : Nat :=
  if (map_find xm.m key).isSome then 1 else 0

/-- The function `value_semantic::parse` for the two semantics in use.
`untyped_value::xparse` refuses a second occurrence and more than one token and
stores the token (or the empty string).  `typed_value<fs::path>::xparse` has no
implicit value, so it runs `validate`: `check_first_occurrence`,
`get_single_string`, then `lexical_cast`, whose failure is
`invalid_option_value`. -/
def value_semantic.parse (sem : value_semantic) (option_name : Str) (value_store : any)
    (new_tokens : List Str) : Except po_error any :=
  match sem with
  | .untyped_value _ =>
    if value_store ≠ any.empty then .error (.multiple_occurrences option_name)
    else if 1 < new_tokens.length then .error (.multiple_values option_name)
    else .ok (.string (new_tokens.headD []))
  | .typed_value_path _ =>
    if value_store ≠ any.empty then .error (.multiple_occurrences option_name)
    else
      match new_tokens with
      | [] => .error (.at_least_one_value_required option_name)
      | [s] =>
        match lexical_cast_path s with
        | some p => .ok (.path p)
        | none => .error (.invalid_option_value option_name s)
      | _ :: _ :: _ => .error (.multiple_values_not_allowed option_name)

/-- The first loop of `store`: each parsed option with a key that is not final
is looked up exactly, a defaulted value is erased, and the option's tokens are
parsed into the value; `new_final` collects the non-composing options. -/
def store_options (options : List option_description) (m_final : List Str) :
    List basic_option → List (Str × variable_value) → List Str →
      Except po_error (List (Str × variable_value) × List Str)
  | [], m, new_final => .ok (m, new_final)
  | o :: os, m, new_final =>
    let option_name := o.string_key
    if option_name.isEmpty then store_options options m_final os m new_final
    else if option_name ∈ m_final then store_options options m_final os m new_final
    else
      match find options option_name false false false with
      | .error e => .error e
      | .ok d =>
        let v : variable_value := (map_find m option_name).getD { v := .empty, m_defaulted := false }
        let v : variable_value := if v.m_defaulted then { v := .empty, m_defaulted := false } else v
        match d.semantic.parse option_name v.v o.value with
        | .error e => .error e
        | .ok value =>
          store_options options m_final os
            (map_assign m option_name { v := value, m_defaulted := false })
            (new_final ++ [option_name])

/-- The second loop of `store`: an option with a key and no entry gets its
default value, marked defaulted (no option here is required). -/
def store_defaults : List option_description → List (Str × variable_value) →
    List (Str × variable_value)
  | [], m => m
  | d :: ds, m =>
    let key := d.key []
    if key.isEmpty then store_defaults ds m
    else if (map_find m key).isNone then
      match d.semantic.apply_default with
      | some dflt => store_defaults ds (map_assign m key { v := dflt, m_defaulted := true })
      | none => store_defaults ds m
    else store_defaults ds m

/-- The call `po::store(parsed, var_map)`. -/
def store (parsed : List basic_option) (options : List option_description)
    (xm : variables_map) : Except po_error variables_map :=
  match store_options options xm.m_final parsed xm.m [] with
  | .error e => .error e
  | .ok (m, new_final) =>
    .ok { m := store_defaults options m, m_final := xm.m_final ++ new_final }

/-- The call `po::notify(var_map)` as far as `main` observes it: the typed value of
`path` is written through the pointer `&path_in`; the untyped `help` has
nothing to notify, and no option is required. -/
def notify (xm : variables_map) (path_in : Str) : Str :=
  match map_find xm.m "path".toList with
  | some { v := .path p, .. } => p
  | _ => path_in

/-! ## `main` -/

/-- What is written to a stream: the option description (`<< desc`), a string,
or `std::endl`. -/
inductive chunk where
  | usage
  | text (s : Str)
  | endl
  deriving DecidableEq, Repr

/-- The outcome of the statement `hierview::Window win;`: the constructor
completes, or it throws an object derived from `std::exception` (with its
`what()`), or it throws an object of another type. -/
inductive ctor_result where
  | completes
  | throws_exception (what : Str)
  | throws_other
  deriving DecidableEq, Repr

/-- The outcome of the call `win.draw(path_in)`: it returns an `int`, or it
throws an object derived from `std::exception` (with its `what()`), or it
throws an object of another type. -/
inductive draw_result where
  | returns (n : Int)
  | throws_exception (what : Str)
  | throws_other
  deriving DecidableEq, Repr

/-- Modelled from the spec: the module `window` (the class `hierview::Window`)
is missing from the sources.  The spec gives the viewer as an operation that
accepts a path (possibly empty) and either returns an integer status or raises
a failure; `main` reaches it in two statements, the default constructor and
`draw`, and either may raise the failure.  Both are parameters. -/
structure Window where
  construct : ctor_result
  draw : Str → draw_result

/-- What `main` does to the viewer, in order: it runs the constructor, it calls
`draw` on a path. -/
inductive viewer_event where
  | construct
  | draw (path_in : Str)
  deriving DecidableEq, Repr

/-- The statement `hierview::Window win;`: the constructor runs, which is
recorded after the events so far, and yields its outcome. -/
def construct_window (win : Window) (events : List viewer_event) :
    ctor_result × List viewer_event :=
  (win.construct, events ++ [.construct])

/-- The call `win.draw(path_in)`: the call is recorded after the events so far
and yields its outcome. -/
def call_draw (win : Window) (path_in : Str) (events : List viewer_event) :
    draw_result × List viewer_event :=
  (win.draw path_in, events ++ [.draw path_in])

/-- How `main` ends: it returns an exit code, or an exception leaves it. -/
inductive exit_t where
  | returned (code : Int)
  | uncaught
  deriving DecidableEq, Repr

/-- One run of the process: what went to `std::cout` and to `std::cerr`, what
was done to the viewer, in order, and how `main` ended. -/
structure process where
  cout : List chunk
  cerr : List chunk
  viewer_events : List viewer_event
  exit : exit_t
  deriving DecidableEq, Repr

/-- The parsing statements of the first `try` block: `command_line_parser(argc,
argv).options(desc).positional(pos_desc).run()` followed by
`po::store(parsed, var_map)` into the empty `var_map`. -/
def parse (args : List Str) : Option (Except po_error variables_map) :=
  match run desc pos_desc args with
  | none => none
  | some (.error e) => some (.error e)
  | some (.ok parsed) => some (store parsed desc { m := [], m_final := [] })

/-- The second `try` block of `main`: the viewer is constructed and, when the
constructor completes, `draw` is called on `path_in` and its status returned.
A `std::exception` thrown by either statement is caught, its `what()` written
to `std::cerr` and 1 returned; an object of another type is not caught. -/
def dispatch (win : Window) (path_in : Str) : process :=
  match construct_window win [] with
  | (.throws_exception what, events) =>
    { cout := [], cerr := [.text what], viewer_events := events, exit := .returned 1 }
  | (.throws_other, events) =>
    { cout := [], cerr := [], viewer_events := events, exit := .uncaught }
  | (.completes, events) =>
    match call_draw win path_in events with
    | (.returns n, events) =>
      { cout := [], cerr := [], viewer_events := events, exit := .returned n }
    | (.throws_exception what, events) =>
      { cout := [], cerr := [.text what], viewer_events := events, exit := .returned 1 }
    | (.throws_other, events) =>
      { cout := [], cerr := [], viewer_events := events, exit := .uncaught }

/-- The handler `catch (const po::error& e)`: `e.what()` and `std::endl` go to
`std::cerr`, `desc` and `std::endl` to `std::cout`, and `main` returns 1. -/
def on_po_error (e : po_error) : process :=
  { cout := [.usage, .endl], cerr := [.text e.what, .endl], viewer_events := [],
    exit := .returned 1 }

/-- The function `main` on the arguments after the program name.  `path_in`
starts as the empty path.  The result is `none` only if the bounded parser
loops ran out of fuel. -/
def main (args : List Str) (win : Window) : Option process :=
  match parse args with
  | none => none
  | some (.error e) => some (on_po_error e)
  | some (.ok var_map) =>
    if var_map.count "help".toList ≠ 0 then
      some { cout := [.usage, .endl], cerr := [], viewer_events := [], exit := .returned 0 }
    else
      some (dispatch win (notify var_map []))

/-! ## Vocabulary of the claims -/

/-- The two spellings of the help flag named by the usage line. -/
def help_token (t : Str) : Bool := t = "--help".toList ∨ t = "-h".toList

/-- A positional token: one that no style parser takes, that is, anything but
a token of two or more characters starting with a dash. -/
def positional_token (t : Str) : Bool := t.length < 2 ∨ t.head? ≠ some '-'

/-- An unrecognized option token: the style parsers read the token as one or
more options, and the description has no option for one of their names. -/
def unrecognized_option_token (t : Str) : Bool :=
  match followed_option (style_parsers desc) t with
  | .ok os =>
    os.any fun o =>
      match find_nothrow desc o.string_key m_style.allow_guessing
          m_style.long_case_insensitive m_style.short_case_insensitive with
      | .ok none => true
      | _ => false
  | .error _ => false

/-- An option token that takes the next token as its value: the style parsers
read it as options of which the last has no value of its own and names an
option that requires one (here `--path`, or an abbreviation of it, without
`=value`). -/
def awaits_value (t : Str) : Bool :=
  match followed_option (style_parsers desc) t with
  | .ok os =>
    match os.getLast? with
    | some o =>
      o.value.isEmpty &&
        (match find_nothrow desc o.string_key m_style.allow_guessing
            m_style.long_case_insensitive m_style.short_case_insensitive with
         | .ok (some d) => decide (0 < d.semantic.min_tokens)
         | _ => false)
    | none => false
  | .error _ => false

/-- The option that the outer loop of `cmdline::run` makes of a token no style
parser takes. -/
def positional_option (a : Str) : basic_option :=
  { basic_option.new with value := [a], original_tokens := [a] }

/-- The option `cmdline::run` makes of the help flag spelled `h`. -/
def help_option (h : Str) : basic_option :=
  { string_key := "help".toList, position_key := -1, value := [], original_tokens := [h] }

/-- A list of parsed options in which the help flag was read: one of them has
the key `help` (and, as every keyed option, no position). -/
def has_help (l : List basic_option) : Prop :=
  ∃ o ∈ l, o.string_key = "help".toList ∧ o.position_key = -1

/-- A viewer whose constructor completes and whose `draw` returns `n` on every
path. -/
def viewer_returning (n : Int) : Window :=
  { construct := .completes, draw := fun _ => .returns n }

/-- What `main` does to a viewer once it gets to it: the constructor runs, and
`draw` is called on `path_in` when the constructor completes. -/
def events_of_run (win : Window) (path_in : Str) : List viewer_event :=
  if win.construct = .completes then [.construct, .draw path_in] else [.construct]

/-- The run that prints the usage text to `std::cout` and returns 0. -/
def help_run : process :=
  { cout := [.usage, .endl], cerr := [], viewer_events := [], exit := .returned 0 }

/-! ## The control flow of `main` -/

theorem dispatch_events (win : Window) (path_in : Str) :
    (dispatch win path_in).viewer_events = events_of_run win path_in := by
  unfold dispatch construct_window call_draw events_of_run
  cases hc : win.construct <;> simp
  cases win.draw path_in <;> rfl

theorem dispatch_of_returns {win : Window} {path_in : Str} {n : Int}
    (hc : win.construct = .completes) (hd : win.draw path_in = .returns n) :
    dispatch win path_in =
      { cout := [], cerr := [], viewer_events := [.construct, .draw path_in],
        exit := .returned n } := by
  simp [dispatch, construct_window, call_draw, hc, hd]

theorem main_of_parse_error {args : List Str} {e : po_error} (win : Window)
    (h : parse args = some (.error e)) : main args win = some (on_po_error e) := by
  simp [main, h]

theorem main_of_help {args : List Str} {var_map : variables_map} (win : Window)
    (h : parse args = some (.ok var_map)) (hh : var_map.count "help".toList ≠ 0) :
    main args win = some help_run := by
  simp only [main, h]
  rw [if_pos hh]
  rfl

theorem main_of_run {args : List Str} {var_map : variables_map} (win : Window)
    (h : parse args = some (.ok var_map)) (hh : var_map.count "help".toList = 0) :
    main args win = some (dispatch win (notify var_map [])) := by
  simp only [main, h]
  rw [if_neg (fun h' => h' hh)]

/-- Claim C2: for the argument vector `-h` and for the argument vector
`--help`, `main` writes the usage text to standard output, writes nothing to
the error stream, does not touch the viewer, and returns 0. -/
theorem help_spellings_accepted (win : Window) :
    main ["-h".toList] win = some help_run ∧ main ["--help".toList] win = some help_run :=
  ⟨rfl, rfl⟩

/-- Claim C3: when the arguments parse without the help flag and the viewer's
`draw` (its constructor having completed) returns `n` on the resolved path,
`main` returns exactly `n` (and writes nothing). -/
theorem viewer_status_returned (args : List Str) (win : Window) (var_map : variables_map)
    (n : Int) (hparse : parse args = some (.ok var_map))
    (hhelp : var_map.count "help".toList = 0)
    (hctor : win.construct = .completes)
    (hdraw : win.draw (notify var_map []) = .returns n) :
    main args win =
      some { cout := [], cerr := [],
             viewer_events := [.construct, .draw (notify var_map [])],
             exit := .returned n } := by
  rw [main_of_run win hparse hhelp, dispatch_of_returns hctor hdraw]

theorem viewer_status_returned_witness :
    main ["tree.json".toList] (viewer_returning 42) =
      some { cout := [], cerr := [],
             viewer_events := [.construct, .draw (notify
               { m := [("path".toList, { v := .path "tree.json".toList, m_defaulted := false })],
                 m_final := ["path".toList] } [])],
             exit := .returned 42 } :=
  viewer_status_returned ["tree.json".toList] (viewer_returning 42)
    { m := [("path".toList, { v := .path "tree.json".toList, m_defaulted := false })],
      m_final := ["path".toList] } 42 rfl (by decide) rfl rfl

/-- Claim C4, as stated, fails: on the argument vector `--bogus` parsing fails,
yet the usage text is written to standard output, not to the error stream. -/
theorem parse_failure_usage_on_cout :
    ¬ (∀ (args : List Str) (win : Window) (e : po_error), parse args = some (.error e) →
        ∃ p, main args win = some p ∧ p.cout = [] ∧ chunk.usage ∈ p.cerr ∧
          p.exit = .returned 1) := by
  intro h
  obtain ⟨p, hp, hc, _, _⟩ :=
    h ["--bogus".toList] (viewer_returning 0) (.unknown_option "--bogus".toList) rfl
  rw [main_of_parse_error _ (rfl : parse ["--bogus".toList] =
    some (.error (.unknown_option "--bogus".toList)))] at hp
  cases hp
  simp [on_po_error] at hc

/-- Claim C4, amended: on every argument vector on which parsing fails, `main`
writes the error diagnostic (and a line end) to the error stream, the usage
text (and a line end) to standard output, does not touch the viewer, and
returns 1. -/
theorem parse_failure_reported (args : List Str) (win : Window) (e : po_error)
    (h : parse args = some (.error e)) :
    main args win =
      some { cout := [.usage, .endl], cerr := [.text e.what, .endl], viewer_events := [],
             exit := .returned 1 } := by
  rw [main_of_parse_error win h]
  rfl

theorem parse_failure_reported_witness :
    main ["--bogus".toList] (viewer_returning 0) =
      some { cout := [.usage, .endl],
             cerr := [.text (po_error.unknown_option "--bogus".toList).what, .endl],
             viewer_events := [], exit := .returned 1 } :=
  parse_failure_reported ["--bogus".toList] (viewer_returning 0)
    (.unknown_option "--bogus".toList) rfl

/-- Claim C6, as stated, fails: on the empty argument vector, with a viewer
whose constructor throws, `main` never calls `draw`. -/
theorem empty_arguments_constructor_throws :
    ¬ (∀ (win : Window), ∃ p, main [] win = some p ∧
        viewer_event.draw [] ∈ p.viewer_events) := by
  intro h
  obtain ⟨p, hp, hd⟩ := h { construct := .throws_exception "no display".toList,
                             draw := fun _ => .returns 0 }
  have hm : main [] { construct := .throws_exception "no display".toList,
                      draw := fun _ => .returns 0 } =
      some { cout := [], cerr := [.text "no display".toList], viewer_events := [.construct],
             exit := .returned 1 } := rfl
  rw [hm] at hp
  cases hp
  simp at hd

/-- Claim C6, amended: for the empty argument vector parsing succeeds, `help` is
not in the variables map, the resolved path is the empty path, and `main` runs
the viewer's constructor once and, when the constructor completes, calls `draw`
exactly once, on the empty path, and returns the status `draw` returns. -/
theorem empty_arguments_run_viewer (win : Window) :
    ∃ var_map p, parse [] = some (.ok var_map) ∧ var_map.count "help".toList = 0 ∧
      notify var_map [] = [] ∧ main [] win = some p ∧
      p.viewer_events =
        (if win.construct = .completes then [.construct, .draw []] else [.construct]) ∧
      (win.construct = .completes → ∀ n, win.draw [] = .returns n →
        p.exit = .returned n) :=
  ⟨{ m := [("path".toList, { v := .path [], m_defaulted := true })], m_final := [] },
    dispatch win [], rfl, by decide, by decide, rfl, dispatch_events win [],
    fun hc n hd => by rw [dispatch_of_returns hc hd]⟩

/-- Claim C7, as stated, fails: when the viewer throws an object that is not a
`std::exception`, the handler of `main` does not catch it and `main` does not
return 1. -/
theorem viewer_failure_can_escape :
    ¬ (∀ (args : List Str) (win : Window) (var_map : variables_map),
        parse args = some (.ok var_map) → var_map.count "help".toList = 0 →
        (win.construct ≠ .completes ∨ ∀ n, win.draw (notify var_map []) ≠ .returns n) →
        ∃ p, main args win = some p ∧ p.exit = .returned 1) := by
  intro h
  obtain ⟨p, hp, he⟩ :=
    h [] { construct := .completes, draw := fun _ => .throws_other }
      { m := [("path".toList, { v := .path [], m_defaulted := true })], m_final := [] }
      rfl (by decide) (Or.inr (by intro n hn; cases hn))
  have hm : main [] { construct := .completes, draw := fun _ => draw_result.throws_other } =
      some { cout := [], cerr := [], viewer_events := [.construct, .draw []],
             exit := .uncaught } := rfl
  rw [hm] at hp
  cases hp
  cases he

/-- Claim C7, amended: when the arguments parse without the help flag and the
viewer's constructor, or (the constructor having completed) its `draw`, throws
a `std::exception` whose `what()` is `M`, `main` catches it, writes `M` to the
error stream (nothing to standard output) and returns 1. -/
theorem viewer_exception_reported (args : List Str) (win : Window) (var_map : variables_map)
    (M : Str) (hparse : parse args = some (.ok var_map))
    (hhelp : var_map.count "help".toList = 0)
    (hthrow : win.construct = .throws_exception M ∨
      (win.construct = .completes ∧ win.draw (notify var_map []) = .throws_exception M)) :
    main args win =
      some { cout := [], cerr := [.text M],
             viewer_events := events_of_run win (notify var_map []),
             exit := .returned 1 } := by
  rw [main_of_run win hparse hhelp]
  rcases hthrow with hc | ⟨hc, hd⟩
  · simp [dispatch, construct_window, events_of_run, hc]
  · simp [dispatch, construct_window, call_draw, events_of_run, hc, hd]

theorem viewer_exception_reported_witness :
    main [] { construct := .completes,
              draw := fun _ => .throws_exception "file not found".toList } =
      some { cout := [], cerr := [.text "file not found".toList],
             viewer_events := events_of_run
               { construct := .completes,
                 draw := fun _ => .throws_exception "file not found".toList }
               (notify { m := [("path".toList, { v := .path [], m_defaulted := true })],
                         m_final := [] } []),
             exit := .returned 1 } :=
  viewer_exception_reported []
    { construct := .completes, draw := fun _ => .throws_exception "file not found".toList }
    { m := [("path".toList, { v := .path [], m_defaulted := true })], m_final := [] }
    "file not found".toList rfl (by decide) (Or.inr ⟨rfl, rfl⟩)

/-- Claim C1, as stated, fails: the argument vector `--help --bogus` contains
the help flag, yet parsing fails on the unrecognized option and `main` returns
1 instead of the help run. -/
theorem help_with_unknown_option_fails :
    ¬ (∀ (args : List Str) (win : Window), (∃ t ∈ args, help_token t = true) →
        main args win = some help_run) := by
  intro h
  have h1 := h ["--help".toList, "--bogus".toList] (viewer_returning 0)
    ⟨"--help".toList, by decide, by decide⟩
  have hm : main ["--help".toList, "--bogus".toList] (viewer_returning 0) =
      some (on_po_error (.unknown_option "--bogus".toList)) := rfl
  rw [hm] at h1
  revert h1
  decide

/-- Claim C5, as stated, fails, on two counts.  The single positional token
`a b` (with a space) is rejected by the conversion to a path, so `draw` is not
called, although the viewer would run; and on the plain token `tree.json`, with
a viewer whose constructor throws, `draw` is not called either. -/
theorem positional_with_space_rejected :
    ¬ (∀ (t : Str) (win : Window), positional_token t = true → win.construct = .completes →
        ∃ p, main [t] win = some p ∧ viewer_event.draw t ∈ p.viewer_events) ∧
    ¬ (∀ (win : Window), ∃ p, main ["tree.json".toList] win = some p ∧
        viewer_event.draw "tree.json".toList ∈ p.viewer_events) := by
  constructor
  · intro h
    obtain ⟨p, hp, hv⟩ := h "a b".toList (viewer_returning 0) (by decide) rfl
    have hm : main ["a b".toList] (viewer_returning 0) =
        some (on_po_error (.invalid_option_value "path".toList "a b".toList)) := rfl
    rw [hm] at hp
    cases hp
    simp [on_po_error] at hv
  · intro h
    obtain ⟨p, hp, hv⟩ := h { construct := .throws_other, draw := fun _ => .returns 0 }
    have hm : main ["tree.json".toList]
        { construct := .throws_other, draw := fun _ => .returns 0 } =
        some { cout := [], cerr := [], viewer_events := [.construct], exit := .uncaught } := rfl
    rw [hm] at hp
    cases hp
    simp at hv

/-- Claim C8, as stated, fails: in the argument vector `--path --bogus` the
unrecognized option token `--bogus` is taken as the value of `--path`; parsing
succeeds and `main` returns what the viewer returns (here 0) with nothing on
the error stream. -/
theorem unknown_option_taken_as_value :
    ¬ (∀ (args : List Str) (win : Window),
        (∃ t ∈ args, unrecognized_option_token t = true) →
        ∃ p, main args win = some p ∧ p.exit = .returned 1 ∧ p.cerr ≠ []) := by
  intro h
  obtain ⟨p, hp, he, _⟩ := h ["--path".toList, "--bogus".toList] (viewer_returning 0)
    ⟨"--bogus".toList, by decide, by decide⟩
  have hm : main ["--path".toList, "--bogus".toList] (viewer_returning 0) =
      some { cout := [], cerr := [], viewer_events := [.construct, .draw "--bogus".toList],
             exit := .returned 0 } := rfl
  rw [hm] at hp
  cases hp
  cases he

theorem positional_token_head {c0 c1 : Char} {cs : Str}
    (h : positional_token (c0 :: c1 :: cs) = true) : c0 ≠ '-' := by
  simp [positional_token] at h
  rcases h with h | h
  · omega
  · exact h

theorem parse_long_option_positional {t : Str} (h : positional_token t = true) (r : List Str) :
    parse_long_option (t :: r) = .ok ([], t :: r) := by
  rcases t with _ | ⟨c0, _ | ⟨c1, _ | ⟨c2, cs⟩⟩⟩
  · rfl
  · rfl
  · rfl
  · simp [parse_long_option, positional_token_head h]

theorem parse_short_option_positional {t : Str} (h : positional_token t = true) (r : List Str) :
    parse_short_option desc (t :: r) = .ok ([], t :: r) := by
  rcases t with _ | ⟨c0, _ | ⟨c1, cs⟩⟩
  · rfl
  · rfl
  · simp [parse_short_option, positional_token_head h]

theorem parse_terminator_positional {t : Str} (h : positional_token t = true) (r : List Str) :
    parse_terminator (t :: r) = .ok ([], t :: r) := by
  rcases t with _ | ⟨c0, _ | ⟨c1, cs⟩⟩
  · rfl
  · simp [parse_terminator]
  · simp [parse_terminator, positional_token_head h]

theorem try_style_parsers_positional {t : Str} (h : positional_token t = true) (r : List Str)
    (result : List basic_option) :
    try_style_parsers desc (style_parsers desc) (t :: r) result = .ok (false, t :: r, result) := by
  simp [try_style_parsers, style_parsers, parse_long_option_positional h,
    parse_short_option_positional h, parse_terminator_positional h]

theorem lexical_cast_path_plain {t : Str} (hne : t ≠ []) (hws : ∀ c ∈ t, isspace c = false)
    (hq : t.head? ≠ some quote_delim) : lexical_cast_path t = some t := by
  rcases t with _ | ⟨c, cs⟩
  · exact absurd rfl hne
  · have hc : c ≠ quote_delim := by simpa using hq
    have htw : List.takeWhile (fun c => !isspace c) (c :: cs) = c :: cs := by
      rw [List.takeWhile_eq_self_iff]
      intro x hx
      simp [hws x hx]
    have hdw : List.dropWhile (fun c => !isspace c) (c :: cs) = [] := by
      rw [List.dropWhile_eq_nil_iff]
      intro x hx
      simp [hws x hx]
    simp only [lexical_cast_path, extract_quoted, if_neg hc, extract_word, htw, hdw]
    rfl

theorem run_single_positional {t : Str} (h : positional_token t = true) :
    run desc pos_desc [t] =
      some (.ok [{ string_key := "path".toList, position_key := 0, value := [t],
                   original_tokens := [t] }]) := by
  simp only [run, List.length, run_loop, try_style_parsers_positional h]
  rfl

theorem store_single_path (t p : Str) (k : Int) (toks : List Str) (h : lexical_cast_path t = some p) :
    store [{ string_key := "path".toList, position_key := k, value := [t],
             original_tokens := toks }] desc { m := [], m_final := [] } =
      .ok { m := [("path".toList, { v := .path p, m_defaulted := false })],
            m_final := ["path".toList] } := by
  have hf : find desc "path".toList false false false =
      .ok (set_names "path".toList (.typed_value_path (.path []))) := rfl
  simp only [store, store_options, hf, value_semantic.parse, h]
  rfl

theorem parse_single_positional {t : Str} (hpos : positional_token t = true) (hne : t ≠ [])
    (hws : ∀ c ∈ t, isspace c = false) (hq : t.head? ≠ some quote_delim) :
    parse [t] = some (.ok { m := [("path".toList, { v := .path t, m_defaulted := false })],
                            m_final := ["path".toList] }) := by
  simp only [parse, run_single_positional hpos,
    store_single_path t t 0 [t] (lexical_cast_path_plain hne hws hq)]

/-- Claim C5, amended: for every argument vector made of one positional token
that is not empty, holds no white space and does not start with a double
quote, parsing succeeds, `help` is not in the variables map, the resolved path
is the token exactly, and `main` runs the viewer's constructor once and, when
the constructor completes, calls `draw` exactly once, on that token, and
returns the status `draw` returns. -/
theorem single_positional_runs_viewer (t : Str) (win : Window)
    (hpos : positional_token t = true) (hne : t ≠ [])
    (hws : ∀ c ∈ t, isspace c = false) (hq : t.head? ≠ some quote_delim) :
    ∃ var_map p, parse [t] = some (.ok var_map) ∧ var_map.count "help".toList = 0 ∧
      notify var_map [] = t ∧ main [t] win = some p ∧
      p.viewer_events =
        (if win.construct = .completes then [.construct, .draw t] else [.construct]) ∧
      (win.construct = .completes → ∀ n, win.draw t = .returns n →
        p.exit = .returned n) := by
  refine ⟨_, dispatch win t, parse_single_positional hpos hne hws hq, rfl, rfl, ?_,
    dispatch_events win t, fun hc n hd => by rw [dispatch_of_returns hc hd]⟩
  rw [main_of_run win (parse_single_positional hpos hne hws hq) rfl]
  rfl

theorem single_positional_runs_viewer_witness :
    ∃ var_map p, parse ["/tmp/tree.json".toList] = some (.ok var_map) ∧
      var_map.count "help".toList = 0 ∧
      notify var_map [] = "/tmp/tree.json".toList ∧
      main ["/tmp/tree.json".toList] (viewer_returning 3) = some p ∧
      p.viewer_events =
        (if (viewer_returning 3).construct = .completes then
          [.construct, .draw "/tmp/tree.json".toList] else [.construct]) ∧
      ((viewer_returning 3).construct = .completes →
        ∀ n, (viewer_returning 3).draw "/tmp/tree.json".toList = .returns n →
          p.exit = .returned n) :=
  single_positional_runs_viewer "/tmp/tree.json".toList (viewer_returning 3)
    (by decide) (by decide) (by decide) (by decide)

/-! ## One round of the style parsers -/

theorem grab_tokens_one (o : basic_option) (t : Str) (ts : List Str) :
    (∃ e, grab_tokens desc 1 o (t :: ts) = .error e) ∨
    grab_tokens desc 1 o (t :: ts) =
      .ok ({ o with value := o.value ++ [t], original_tokens := o.original_tokens ++ [t] },
           ts) := by
  simp only [grab_tokens]
  cases followed_option (style_parsers desc) t with
  | error e => exact Or.inl ⟨e, rfl⟩
  | ok followed =>
    simp only
    split
    · exact Or.inr rfl
    · cases find_nothrow desc t m_style.allow_guessing m_style.long_case_insensitive
          m_style.short_case_insensitive with
      | error e => exact Or.inl ⟨e, rfl⟩
      | ok d =>
        cases d with
        | none => exact Or.inr rfl
        | some d => exact Or.inl ⟨_, rfl⟩

theorem min_tokens_le_one (s : value_semantic) : s.min_tokens = 0 ∨ s.min_tokens = 1 := by
  cases s with
  | untyped_value z => cases z <;> simp [value_semantic.min_tokens]
  | typed_value_path d => simp [value_semantic.min_tokens]

/-- What `finish_option` can do with the tokens that follow: fail, leave them,
or (for an option without a value of its own that requires one) take the
first. -/
theorem finish_option_cases (o : basic_option) (r : List Str) :
    (∃ e, finish_option desc o r = .error e) ∨
    (∃ o', finish_option desc o r = .ok (o', r)) ∨
    (∃ o' t ts d, r = t :: ts ∧ finish_option desc o r = .ok (o', ts) ∧
      o.value = [] ∧
      find_nothrow desc o.string_key m_style.allow_guessing m_style.long_case_insensitive
        m_style.short_case_insensitive = .ok (some d) ∧ 0 < d.semantic.min_tokens) := by
  obtain ⟨key, pk, value, toks⟩ := o
  unfold finish_option
  split
  · exact Or.inr (Or.inl ⟨_, rfl⟩)
  · simp only
    cases hf : find_nothrow desc key m_style.allow_guessing
        m_style.long_case_insensitive m_style.short_case_insensitive with
    | error e => exact Or.inl ⟨e, rfl⟩
    | ok d =>
      cases d with
      | none => exact Or.inl ⟨_, rfl⟩
      | some d =>
        simp only
        split
        · split
          · exact Or.inl ⟨_, rfl⟩
          · rcases min_tokens_le_one d.semantic with h0 | h1
            · simp only [h0, grab_tokens]
              simp [grab_tokens]
            · simp only [h1]
              cases value with
              | nil =>
                cases r with
                | nil => exact Or.inr (Or.inl ⟨_, rfl⟩)
                | cons t ts =>
                  simp only [List.length_nil, Nat.zero_le, if_true, Nat.sub_zero]
                  rcases grab_tokens_one
                      { string_key := d.key key, position_key := pk, value := [],
                        original_tokens := toks } t ts with ⟨e, he⟩ | hok
                  · exact Or.inl ⟨e, he⟩
                  · exact Or.inr (Or.inr ⟨_, t, ts, d, rfl, hok, trivial, rfl, by omega⟩)
              | cons v vs =>
                have hz : (if (v :: vs).length ≤ 1 then 1 - (v :: vs).length else 0) = 0 := by
                  split <;> simp
                rw [hz]
                exact Or.inr (Or.inl ⟨_, rfl⟩)
        · exact Or.inl ⟨_, rfl⟩

theorem finish_options_cases (os : List basic_option) (hne : os ≠ []) (r : List Str) :
    (∃ e, finish_options desc os r = .error e) ∨
    (∃ os', finish_options desc os r = .ok (os', r)) ∨
    (∃ os' t ts o d, r = t :: ts ∧ finish_options desc os r = .ok (os', ts) ∧
      os.getLast? = some o ∧ o.value = [] ∧
      find_nothrow desc o.string_key m_style.allow_guessing m_style.long_case_insensitive
        m_style.short_case_insensitive = .ok (some d) ∧ 0 < d.semantic.min_tokens) := by
  induction os with
  | nil => exact absurd rfl hne
  | cons o os ih =>
    cases os with
    | nil =>
      simp only [finish_options]
      rcases finish_option_cases o r with ⟨e, he⟩ | ⟨o', ho⟩ | ⟨o', t, ts, d, hr, ho, hv, hf, hm⟩
      · exact Or.inl ⟨e, by rw [he]⟩
      · exact Or.inr (Or.inl ⟨[o'], by rw [ho]⟩)
      · exact Or.inr (Or.inr ⟨[o'], t, ts, o, d, hr, by rw [ho], rfl, hv, hf, hm⟩)
    | cons o2 os' =>
      simp only [finish_options]
      cases finish_option desc o [] with
      | error e => exact Or.inl ⟨e, rfl⟩
      | ok p =>
        obtain ⟨o', x⟩ := p
        rcases ih (by simp) with ⟨e, he⟩ | ⟨os1, h1⟩ | ⟨os1, t, ts, ol, d, hr, h1, hl, hv, hf, hm⟩
        · exact Or.inl ⟨e, by simp only [he]⟩
        · exact Or.inr (Or.inl ⟨o' :: os1, by simp only [h1]⟩)
        · exact Or.inr (Or.inr ⟨o' :: os1, t, ts, ol, d, hr, by simp only [h1],
            by simpa using hl, hv, hf, hm⟩)

theorem find_nothrow_empty_key :
    find_nothrow desc [] m_style.allow_guessing m_style.long_case_insensitive
      m_style.short_case_insensitive ≠ .ok none := by
  intro h
  have h2 : (match find_nothrow desc [] m_style.allow_guessing m_style.long_case_insensitive
      m_style.short_case_insensitive with
    | .ok none => true
    | _ => false) = false := rfl
  rw [h] at h2
  cases h2

theorem finish_option_unknown (o : basic_option) (r : List Str)
    (h : find_nothrow desc o.string_key m_style.allow_guessing m_style.long_case_insensitive
      m_style.short_case_insensitive = .ok none) :
    ∃ e, finish_option desc o r = .error e := by
  unfold finish_option
  split
  · rename_i hk
    have hk' : o.string_key = [] := by simpa using hk
    rw [hk'] at h
    exact absurd h find_nothrow_empty_key
  · simp only [h]
    exact ⟨_, rfl⟩

theorem finish_options_unknown (os : List basic_option) (r : List Str)
    (h : ∃ o ∈ os, find_nothrow desc o.string_key m_style.allow_guessing
      m_style.long_case_insensitive m_style.short_case_insensitive = .ok none) :
    ∃ e, finish_options desc os r = .error e := by
  induction os with
  | nil => simp at h
  | cons o os ih =>
    cases os with
    | nil =>
      obtain ⟨o1, ho1, hf⟩ := h
      have : o1 = o := by simpa using ho1
      subst this
      obtain ⟨e, he⟩ := finish_option_unknown o1 r hf
      exact ⟨e, by simp only [finish_options, he]⟩
    | cons o2 os' =>
      simp only [finish_options]
      cases hfo : finish_option desc o [] with
      | error e => exact ⟨e, rfl⟩
      | ok p =>
        obtain ⟨o', x⟩ := p
        obtain ⟨o1, ho1, hf⟩ := h
        rcases List.mem_cons.mp ho1 with heq | hmem
        · subst heq
          obtain ⟨e, he⟩ := finish_option_unknown o1 [] hf
          rw [he] at hfo
          cases hfo
        · obtain ⟨e, he⟩ := ih ⟨o1, hmem, hf⟩
          exact ⟨e, by simp only [he]⟩

theorem token_shape (a : Str) :
    positional_token a = true ∨ a = ['-', '-'] ∨ (∃ c2 cs, a = '-' :: '-' :: c2 :: cs) ∨
      (∃ c1 cs, a = '-' :: c1 :: cs ∧ c1 ≠ '-') := by
  rcases a with _ | ⟨c0, _ | ⟨c1, cs⟩⟩
  · exact Or.inl (by decide)
  · exact Or.inl (by simp [positional_token])
  · by_cases h0 : c0 = '-'
    · subst h0
      by_cases h1 : c1 = '-'
      · subst h1
        cases cs with
        | nil => exact Or.inr (Or.inl rfl)
        | cons c2 cs => exact Or.inr (Or.inr (Or.inl ⟨c2, cs, rfl⟩))
      · exact Or.inr (Or.inr (Or.inr ⟨c1, cs, rfl, h1⟩))
    · exact Or.inl (by simp [positional_token, h0])

theorem parse_long_option_long (c2 : Char) (cs : Str) :
    (∃ e, ∀ r, parse_long_option (('-' :: '-' :: c2 :: cs) :: r) = .error e) ∨
    (∃ o, ∀ r, parse_long_option (('-' :: '-' :: c2 :: cs) :: r) = .ok ([o], r)) := by
  simp only [parse_long_option, and_self, if_true]
  cases split_adjacent (c2 :: cs) with
  | none => exact Or.inr ⟨_, fun r => rfl⟩
  | some p =>
    obtain ⟨name, adjacent⟩ := p
    simp only
    split
    · exact Or.inl ⟨_, fun r => rfl⟩
    · exact Or.inr ⟨_, fun r => rfl⟩

theorem parse_long_option_short {c1 : Char} (cs : Str) (h : c1 ≠ '-') (r : List Str) :
    parse_long_option (('-' :: c1 :: cs) :: r) = .ok ([], ('-' :: c1 :: cs) :: r) := by
  cases cs with
  | nil => rfl
  | cons c2 cs => simp [parse_long_option, h]

theorem parse_short_loop_ne_nil (tok : Str) :
    ∀ (adjacent name : Str) (acc res : List basic_option),
      parse_short_loop desc tok adjacent name acc = .ok res → res ≠ [] := by
  intro adjacent
  induction adjacent with
  | nil =>
    intro name acc res h
    simp only [parse_short_loop] at h
    cases hf : find_nothrow desc name false false m_style.short_case_insensitive with
    | error e => rw [hf] at h; cases h
    | ok d =>
      rw [hf] at h
      cases h
      simp
  | cons c cs ih =>
    intro name acc res h
    simp only [parse_short_loop] at h
    cases hf : find_nothrow desc name false false m_style.short_case_insensitive with
    | error e => rw [hf] at h; cases h
    | ok d =>
      rw [hf] at h
      simp only at h
      split at h
      · exact ih _ _ _ h
      · cases h
        simp

theorem parse_short_option_short {c1 : Char} (cs : Str) (h : c1 ≠ '-') :
    (∃ e, ∀ r, parse_short_option desc (('-' :: c1 :: cs) :: r) = .error e) ∨
    (∃ os, os ≠ [] ∧ ∀ r, parse_short_option desc (('-' :: c1 :: cs) :: r) = .ok (os, r)) := by
  simp only [parse_short_option, h, true_and, ne_eq, not_false_eq_true, if_true]
  cases hl : parse_short_loop desc ('-' :: c1 :: cs) cs ['-', c1] [] with
  | error e => exact Or.inl ⟨e, fun r => rfl⟩
  | ok os => exact Or.inr ⟨os, parse_short_loop_ne_nil _ _ _ _ _ hl, fun r => rfl⟩

theorem parse_terminator_ne {a : Str} (h : a ≠ ['-', '-']) (r : List Str) :
    parse_terminator (a :: r) = .ok ([], a :: r) := by
  simp [parse_terminator, h]

/-- What the style parsers make of one option-shaped token, whatever follows
it: an error, or a non-empty list of options (which `followed_option` reports
as well) that `finish_options` then completes. -/
theorem option_token_parsed (a : Str) (hpos : positional_token a = false)
    (hterm : a ≠ ['-', '-']) :
    ((∃ e, followed_option (style_parsers desc) a = .error e) ∧
      ∀ r res, ∃ e, try_style_parsers desc (style_parsers desc) (a :: r) res = .error e) ∨
    (∃ os, os ≠ [] ∧ followed_option (style_parsers desc) a = .ok os ∧
      ∀ r res,
        (∃ e, finish_options desc os r = .error e ∧
          try_style_parsers desc (style_parsers desc) (a :: r) res = .error e) ∨
        (∃ next args2, finish_options desc os r = .ok (next, args2) ∧
          (args2.length ≠ (a :: r).length →
            try_style_parsers desc (style_parsers desc) (a :: r) res =
              .ok (true, args2, res ++ next)))) := by
  rcases token_shape a with hp | ht | ⟨c2, cs, rfl⟩ | ⟨c1, cs, rfl, hc⟩
  · rw [hp] at hpos; cases hpos
  · exact absurd ht hterm
  · rcases parse_long_option_long c2 cs with ⟨e, he⟩ | ⟨o, ho⟩
    · left
      refine ⟨⟨e, by simp [followed_option, style_parsers, he]⟩, fun r res => ⟨e, ?_⟩⟩
      simp [try_style_parsers, style_parsers, he]
    · right
      refine ⟨[o], by simp, by simp [followed_option, style_parsers, ho], fun r res => ?_⟩
      simp only [try_style_parsers, style_parsers, ho]
      cases hfin : finish_options desc [o] r with
      | error e => exact Or.inl ⟨e, rfl, by simp⟩
      | ok p =>
        obtain ⟨next, args2⟩ := p
        refine Or.inr ⟨next, args2, rfl, fun hlen => ?_⟩
        have hlen' : ¬ args2.length = r.length + 1 := by simpa using hlen
        simp [hlen']
  · rcases parse_short_option_short cs hc with ⟨e, he⟩ | ⟨os, hne, ho⟩
    · left
      refine ⟨⟨e, by simp [followed_option, style_parsers, parse_long_option_short cs hc, he]⟩,
        fun r res => ⟨e, ?_⟩⟩
      simp [try_style_parsers, style_parsers, parse_long_option_short cs hc, he]
    · right
      have hemp : os.isEmpty = false := by
        cases os with
        | nil => exact absurd rfl hne
        | cons _ _ => rfl
      refine ⟨os, hne, by simp [followed_option, style_parsers, parse_long_option_short cs hc,
        ho, hemp], fun r res => ?_⟩
      simp only [try_style_parsers, style_parsers, parse_long_option_short cs hc, ho]
      cases hfin : finish_options desc os r with
      | error e => exact Or.inl ⟨e, rfl, by simp [ho, hne, hfin]⟩
      | ok p =>
        obtain ⟨next, args2⟩ := p
        refine Or.inr ⟨next, args2, rfl, fun hlen => ?_⟩
        have hlen' : ¬ args2.length = r.length + 1 := by simpa using hlen
        simp [ho, hne, hfin, hlen']

/-- One round of the style parsers on an option-shaped token: it fails, or it
consumes the token, or it consumes the token and the next one, which only an
option that awaits a value does. -/
theorem try_style_parsers_option (a : Str) (hpos : positional_token a = false)
    (hterm : a ≠ ['-', '-']) (r : List Str) (res : List basic_option) :
    (∃ e, try_style_parsers desc (style_parsers desc) (a :: r) res = .error e) ∨
    (∃ res', try_style_parsers desc (style_parsers desc) (a :: r) res = .ok (true, r, res')) ∨
    (∃ res' t ts, r = t :: ts ∧ awaits_value a = true ∧
      try_style_parsers desc (style_parsers desc) (a :: r) res = .ok (true, ts, res')) := by
  rcases option_token_parsed a hpos hterm with ⟨_, herr⟩ | ⟨os, hne, hfo, hstep⟩
  · exact Or.inl (herr r res)
  · rcases hstep r res with ⟨e, _, he⟩ | ⟨next, args2, hfin, htry⟩
    · exact Or.inl ⟨e, he⟩
    · rcases finish_options_cases os hne r with ⟨e, he⟩ | ⟨os', h1⟩ |
        ⟨os', t, ts, o, d, hr, h1, hl, hv, hf, hm⟩
      · rw [he] at hfin; cases hfin
      · rw [h1] at hfin
        cases hfin
        exact Or.inr (Or.inl ⟨_, htry (by simp)⟩)
      · subst hr
        rw [h1] at hfin
        cases hfin
        refine Or.inr (Or.inr ⟨_, t, _, rfl, ?_,
          htry (by simp only [List.length_cons, ne_eq]; omega)⟩)
        simp [awaits_value, hfo, hl, hv, hf, hm]

theorem followed_option_positional {a : Str} (h : positional_token a = true) :
    followed_option (style_parsers desc) a = .ok [] := by
  simp [followed_option, style_parsers, parse_long_option_positional h,
    parse_short_option_positional h, parse_terminator_positional h]

/-- One round of the style parsers on an unrecognized option token fails. -/
theorem try_style_parsers_unrecognized (a : Str) (h : unrecognized_option_token a = true)
    (r : List Str) (res : List basic_option) :
    ∃ e, try_style_parsers desc (style_parsers desc) (a :: r) res = .error e := by
  have hpos : positional_token a = false := by
    cases hp : positional_token a with
    | false => rfl
    | true =>
      simp [unrecognized_option_token, followed_option_positional hp] at h
  have hterm : a ≠ ['-', '-'] := by
    intro ha
    subst ha
    revert h
    decide
  rcases option_token_parsed a hpos hterm with ⟨_, herr⟩ | ⟨os, hne, hfo, hstep⟩
  · exact herr r res
  · have hex : ∃ o ∈ os, find_nothrow desc o.string_key m_style.allow_guessing
        m_style.long_case_insensitive m_style.short_case_insensitive = .ok none := by
      simp only [unrecognized_option_token, hfo, List.any_eq_true] at h
      obtain ⟨o, ho, hm⟩ := h
      refine ⟨o, ho, ?_⟩
      split at hm
      · assumption
      · cases hm
    obtain ⟨e, he⟩ := finish_options_unknown os r hex
    rcases hstep r res with ⟨e', _, he'⟩ | ⟨next, args2, hfin, _⟩
    · exact ⟨e', he'⟩
    · rw [he] at hfin; cases hfin

theorem finish_options_keyless (os : List basic_option) (args : List Str)
    (h : ∀ o ∈ os, o.string_key = []) : finish_options desc os args = .ok (os, args) := by
  induction os with
  | nil => rfl
  | cons o os ih =>
    have ho : o.string_key = [] := h o (by simp)
    cases os with
    | nil => simp [finish_options, finish_option, ho]
    | cons o2 os' =>
      have ih' := ih (fun x hx => h x (by simp [hx]))
      simp [finish_options, finish_option, ho, ih']

/-- One round of the style parsers on the terminator `--` consumes all the
arguments. -/
theorem try_style_parsers_terminator (r : List Str) (res : List basic_option) :
    ∃ res', try_style_parsers desc (style_parsers desc) (['-', '-'] :: r) res =
      .ok (true, [], res') := by
  have h1 : parse_long_option (['-', '-'] :: r) = .ok ([], ['-', '-'] :: r) := rfl
  have h2 : parse_short_option desc (['-', '-'] :: r) = .ok ([], ['-', '-'] :: r) := by
    simp [parse_short_option]
  have h3 : parse_terminator (['-', '-'] :: r) =
      .ok (r.map fun a => { basic_option.new with
        value := [a], original_tokens := [a], position_key := INT_MAX }, []) := by
    simp [parse_terminator]
  have h4 := finish_options_keyless
    (r.map fun a => { basic_option.new with
      value := [a], original_tokens := [a], position_key := INT_MAX }) []
    (by intro o ho; simp only [List.mem_map] at ho; obtain ⟨a, _, rfl⟩ := ho; rfl)
  refine ⟨res ++ r.map fun a => { basic_option.new with
    value := [a], original_tokens := [a], position_key := INT_MAX }, ?_⟩
  simp only [try_style_parsers, style_parsers, h1]
  by_cases hr : r = []
  · subst hr
    simp [h2, h3]
  · simp [h2, h3, hr, h4]

/-! ## The outer loop of `cmdline::run` -/

theorem run_loop_of_error {fuel : Nat} {a : Str} {r : List Str} {res : List basic_option}
    {e : po_error}
    (h : try_style_parsers desc (style_parsers desc) (a :: r) res = .error e) :
    run_loop desc (fuel + 1) (a :: r) res = some (.error e) := by
  simp only [run_loop, h]

theorem run_loop_of_consumed {fuel : Nat} {a : Str} {r args : List Str}
    {res res' : List basic_option}
    (h : try_style_parsers desc (style_parsers desc) (a :: r) res = .ok (true, args, res')) :
    run_loop desc (fuel + 1) (a :: r) res = run_loop desc fuel args res' := by
  simp only [run_loop, h]

theorem run_loop_of_positional {fuel : Nat} {a : Str} (r : List Str) (res : List basic_option)
    (h : positional_token a = true) :
    run_loop desc (fuel + 1) (a :: r) res =
      run_loop desc fuel r (res ++ [positional_option a]) := by
  simp only [run_loop, try_style_parsers_positional h, List.tail_cons, List.take_succ_cons,
    List.take_zero, positional_option]

/-- The outer loop of `cmdline::run` ends within as many rounds as there are
arguments. -/
theorem run_loop_total :
    ∀ (fuel : Nat) (args : List Str) (res : List basic_option), args.length ≤ fuel →
      ∃ x, run_loop desc fuel args res = some x := by
  intro fuel
  induction fuel with
  | zero =>
    intro args res h
    cases args with
    | nil => exact ⟨_, rfl⟩
    | cons a r => simp at h
  | succ fuel ih =>
    intro args res h
    cases args with
    | nil => exact ⟨_, rfl⟩
    | cons a r =>
      have hr : r.length ≤ fuel := by simpa using h
      cases hp : positional_token a with
      | true =>
        rw [run_loop_of_positional r res hp]
        exact ih _ _ hr
      | false =>
        by_cases ht : a = ['-', '-']
        · subst ht
          obtain ⟨res', h'⟩ := try_style_parsers_terminator r res
          rw [run_loop_of_consumed h']
          exact ih _ _ (by simp)
        · rcases try_style_parsers_option a hp ht r res with ⟨e, he⟩ | ⟨res', h'⟩ |
            ⟨res', t, ts, hts, _, h'⟩
          · exact ⟨_, run_loop_of_error he⟩
          · rw [run_loop_of_consumed h']
            exact ih _ _ hr
          · rw [run_loop_of_consumed h']
            subst hts
            exact ih _ _ (by simp at hr; omega)

/-- The outer loop fails when it comes to an unrecognized option token, that
is, when no `--` comes before the token and the token right before it (if any)
does not await a value. -/
theorem run_loop_unrecognized (t : Str) (post : List Str)
    (ht : unrecognized_option_token t = true) :
    ∀ (fuel : Nat) (pre : List Str) (res : List basic_option),
      (pre ++ t :: post).length ≤ fuel → ['-', '-'] ∉ pre →
      (∀ a, pre.getLast? = some a → awaits_value a = false) →
      ∃ e, run_loop desc fuel (pre ++ t :: post) res = some (.error e) := by
  intro fuel
  induction fuel with
  | zero =>
    intro pre res h
    simp at h
  | succ fuel ih =>
    intro pre res h hterm hlast
    cases pre with
    | nil =>
      obtain ⟨e, he⟩ := try_style_parsers_unrecognized t ht post res
      exact ⟨e, run_loop_of_error he⟩
    | cons a pre' =>
      have hr : (pre' ++ t :: post).length ≤ fuel := by simpa using h
      have hterm' : ['-', '-'] ∉ pre' := fun hm => hterm (List.mem_cons_of_mem _ hm)
      have ha : a ≠ ['-', '-'] := fun hm => hterm (by simp [hm])
      have hlast' : ∀ b, pre'.getLast? = some b → awaits_value b = false := by
        intro b hb
        apply hlast
        cases pre' with
        | nil => simp at hb
        | cons c cs => simpa using hb
      rw [List.cons_append]
      cases hp : positional_token a with
      | true =>
        rw [run_loop_of_positional _ res hp]
        exact ih _ _ hr hterm' hlast'
      | false =>
        rcases try_style_parsers_option a hp ha (pre' ++ t :: post) res with ⟨e, he⟩ |
          ⟨res', h'⟩ | ⟨res', t', ts, hts, haw, h'⟩
        · exact ⟨e, run_loop_of_error he⟩
        · rw [run_loop_of_consumed h']
          exact ih _ _ hr hterm' hlast'
        · rw [run_loop_of_consumed h']
          cases pre' with
          | nil =>
            have := hlast a rfl
            rw [this] at haw
            cases haw
          | cons b pre'' =>
            simp only [List.cons_append, List.cons.injEq] at hts
            obtain ⟨_, rfl⟩ := hts
            have hterm'' : ['-', '-'] ∉ pre'' := fun hm => hterm' (List.mem_cons_of_mem _ hm)
            have hlast'' : ∀ c, pre''.getLast? = some c → awaits_value c = false := by
              intro c hc
              apply hlast'
              cases pre'' with
              | nil => simp at hc
              | cons d ds => simpa using hc
            exact ih _ _ (by simp at hr ⊢; omega) hterm'' hlast''

/-! ## The rest of `cmdline::run`, and its totality -/

theorem take_more_length :
    ∀ (n : Nat) (opt : basic_option) (rest : List basic_option),
      (take_more n opt rest).2.length ≤ rest.length := by
  intro n
  induction n with
  | zero => intro opt rest; simp [take_more]
  | succ n ih =>
    intro opt rest
    cases rest with
    | nil => simp [take_more]
    | cons opt2 rest =>
      simp only [take_more]
      split
      · simp
      · split
        · simp
        · exact Nat.le_trans (ih _ _) (by simp)

/-- The second pass of `cmdline::run` ends within as many rounds as there are
options. -/
theorem multitoken_pass_total :
    ∀ (fuel : Nat) (l : List basic_option), l.length ≤ fuel →
      ∃ x, multitoken_pass desc fuel l = some x := by
  intro fuel
  induction fuel with
  | zero =>
    intro l h
    cases l with
    | nil => exact ⟨_, rfl⟩
    | cons a r => simp at h
  | succ fuel ih =>
    intro l h
    cases l with
    | nil => exact ⟨_, rfl⟩
    | cons opt rest =>
      have hr : rest.length ≤ fuel := by simpa using h
      have hcont : ∀ (o : basic_option) (rest' : List basic_option), rest'.length ≤ fuel →
          ∃ x, (match multitoken_pass desc fuel rest' with
            | none => none
            | some (.error e) => some (.error e)
            | some (.ok r) => some (Except.ok (o :: r))) = some x := by
        intro o rest' hlen
        obtain ⟨x, hx⟩ := ih rest' hlen
        rw [hx]
        cases x with
        | error e => exact ⟨_, rfl⟩
        | ok r => exact ⟨_, rfl⟩
      simp only [multitoken_pass]
      split
      · exact hcont _ _ hr
      · cases find_nothrow desc opt.string_key m_style.allow_guessing
            m_style.long_case_insensitive m_style.short_case_insensitive with
        | error e => exact ⟨_, rfl⟩
        | ok d =>
          cases d with
          | none => exact hcont _ _ hr
          | some xd =>
            simp only
            split
            · exact hcont _ _ (Nat.le_trans (take_more_length _ _ _) hr)
            · exact hcont _ _ hr

/-- The parser `cmdline::run` returns on every argument vector (with an error
or with the parsed options). -/
theorem run_total (args : List Str) : ∃ x, run desc pos_desc args = some x := by
  obtain ⟨x, hx⟩ := run_loop_total args.length args [] (Nat.le_refl _)
  simp only [run, hx]
  cases x with
  | error e => exact ⟨_, rfl⟩
  | ok result =>
    obtain ⟨y, hy⟩ := multitoken_pass_total result.length result (Nat.le_refl _)
    simp only [hy]
    cases y with
    | error e => exact ⟨_, rfl⟩
    | ok result2 => exact ⟨_, rfl⟩

theorem parse_total (args : List Str) : ∃ x, parse args = some x := by
  obtain ⟨x, hx⟩ := run_total args
  simp only [parse, hx]
  cases x with
  | error e => exact ⟨_, rfl⟩
  | ok parsed => exact ⟨_, rfl⟩

theorem what_ne_nil (e : po_error) : e.what ≠ [] := by
  cases e <;> simp [po_error.what]

theorem parse_unrecognized (pre : List Str) (t : Str) (post : List Str)
    (ht : unrecognized_option_token t = true) (hterm : ['-', '-'] ∉ pre)
    (hlast : ∀ a, pre.getLast? = some a → awaits_value a = false) :
    ∃ e, parse (pre ++ t :: post) = some (.error e) := by
  obtain ⟨e, he⟩ := run_loop_unrecognized t post ht (pre ++ t :: post).length pre []
    (Nat.le_refl _) hterm hlast
  exact ⟨e, by simp only [parse, run, he]⟩

/-- Claim C8, amended: for every argument vector in which an unrecognized
option token is reached as an option, that is, with no `--` before it and not
directly after an option that awaits its value (`--path` without `=value`),
parsing fails, and `main` writes a non-empty diagnostic to the error stream,
does not run the viewer, and returns 1. -/
theorem unknown_option_rejected (pre : List Str) (t : Str) (post : List Str) (win : Window)
    (ht : unrecognized_option_token t = true) (hterm : ['-', '-'] ∉ pre)
    (hlast : ∀ a, pre.getLast? = some a → awaits_value a = false) :
    ∃ e, parse (pre ++ t :: post) = some (.error e) ∧ e.what ≠ [] ∧
      main (pre ++ t :: post) win =
        some { cout := [.usage, .endl], cerr := [.text e.what, .endl], viewer_events := [],
               exit := .returned 1 } := by
  obtain ⟨e, he⟩ := parse_unrecognized pre t post ht hterm hlast
  exact ⟨e, he, what_ne_nil e, by rw [main_of_parse_error win he]; rfl⟩

theorem unknown_option_rejected_witness :
    ∃ e, parse (["--help".toList, "tree.json".toList] ++ "--HELP".toList :: ["-h".toList]) =
        some (.error e) ∧ e.what ≠ [] ∧
      main (["--help".toList, "tree.json".toList] ++ "--HELP".toList :: ["-h".toList])
          (viewer_returning 0) =
        some { cout := [.usage, .endl], cerr := [.text e.what, .endl], viewer_events := [],
               exit := .returned 1 } :=
  unknown_option_rejected ["--help".toList, "tree.json".toList] "--HELP".toList ["-h".toList]
    (viewer_returning 0) (by decide) (by decide) (by decide)

/-- Claim C9, as stated, fails: on the empty argument vector parsing succeeds
without the help flag, yet with a viewer whose constructor throws `draw` is
never invoked. -/
theorem draw_not_invoked_when_constructor_throws :
    ¬ (∀ (args : List Str) (win : Window), ∃ p, main args win = some p ∧
        ((∃ q, viewer_event.draw q ∈ p.viewer_events) ↔
          ∃ var_map, parse args = some (.ok var_map) ∧ var_map.count "help".toList = 0)) := by
  intro h
  obtain ⟨p, hp, hiff⟩ := h [] { construct := .throws_exception "no display".toList,
                                 draw := fun _ => .returns 0 }
  have hm : main [] { construct := .throws_exception "no display".toList,
                      draw := fun _ => .returns 0 } =
      some { cout := [], cerr := [.text "no display".toList], viewer_events := [.construct],
             exit := .returned 1 } := rfl
  rw [hm] at hp
  cases hp
  obtain ⟨q, hq⟩ := hiff.mpr
    ⟨{ m := [("path".toList, { v := .path [], m_defaulted := true })], m_final := [] },
      rfl, by decide⟩
  simp at hq

/-- Claim C9, amended: `main` always ends.  The viewer's constructor is run if
and only if parsing succeeded and `help` is not in the variables map, and then
exactly once; `draw` is then called exactly when the constructor completes,
once, on the resolved path, and the status it returns is what `main` returns.
When `help` is in the map `main` returns 0 and when parsing fails it returns
1, in both cases without having touched the viewer. -/
theorem viewer_run_iff_parsed_without_help (args : List Str) (win : Window) :
    ∃ p, main args win = some p ∧
      (viewer_event.construct ∈ p.viewer_events ↔
        ∃ var_map, parse args = some (.ok var_map) ∧ var_map.count "help".toList = 0) ∧
      (∀ var_map, parse args = some (.ok var_map) → var_map.count "help".toList = 0 →
        p.viewer_events =
          (if win.construct = .completes then [.construct, .draw (notify var_map [])]
           else [.construct]) ∧
        (win.construct = .completes → ∀ n, win.draw (notify var_map []) = .returns n →
          p.exit = .returned n)) ∧
      (∀ var_map, parse args = some (.ok var_map) → var_map.count "help".toList ≠ 0 →
        p.viewer_events = [] ∧ p.exit = .returned 0) ∧
      (∀ e, parse args = some (.error e) → p.viewer_events = [] ∧ p.exit = .returned 1) := by
  obtain ⟨x, hx⟩ := parse_total args
  cases x with
  | error e =>
    refine ⟨_, main_of_parse_error win hx, ?_, ?_, ?_, ?_⟩
    · simp [on_po_error, hx]
    · intro vm h; rw [hx] at h; cases h
    · intro vm h; rw [hx] at h; cases h
    · intro e' _; exact ⟨rfl, rfl⟩
  | ok var_map =>
    by_cases hh : var_map.count "help".toList = 0
    · refine ⟨_, main_of_run win hx hh, ?_, ?_, ?_, ?_⟩
      · rw [dispatch_events]
        constructor
        · intro _
          exact ⟨var_map, hx, hh⟩
        · intro _
          unfold events_of_run
          split <;> simp
      · intro vm h h0
        rw [hx] at h
        cases h
        exact ⟨dispatch_events _ _, fun hc n hd => by rw [dispatch_of_returns hc hd]⟩
      · intro vm h h0
        rw [hx] at h
        cases h
        exact absurd hh h0
      · intro e h; rw [hx] at h; cases h
    · refine ⟨_, main_of_help win hx hh, ?_, ?_, ?_, ?_⟩
      · simp only [help_run, List.not_mem_nil, false_iff, not_exists, not_and]
        intro vm h
        rw [hx] at h
        cases h
        exact hh
      · intro vm h h0
        rw [hx] at h
        cases h
        exact absurd h0 hh
      · intro vm _ _; exact ⟨rfl, rfl⟩
      · intro e h; rw [hx] at h; cases h

/-! ## `path` supplied more than once -/

theorem map_find_map_assign (m : List (Str × variable_value)) (k k' : Str) (v : variable_value) :
    map_find (map_assign m k v) k' = if k = k' then some v else map_find m k' := by
  induction m with
  | nil => simp [map_assign, map_find]
  | cons kv m ih =>
    obtain ⟨k0, v0⟩ := kv
    simp only [map_assign]
    by_cases h0 : k0 = k
    · subst h0
      simp only [if_true, map_find]
      split <;> rfl
    · simp only [if_neg h0, map_find, ih]
      by_cases h1 : k0 = k'
      · subst h1
        simp [Ne.symm h0]
      · simp [h1]

theorem store_options_keys :
    ∀ (os : List basic_option) (m : List (Str × variable_value)) (nf : List Str)
      (m' : List (Str × variable_value)) (nf' : List Str),
      store_options desc [] os m nf = .ok (m', nf') →
      (∀ k, (map_find m k).isSome → (map_find m' k).isSome) ∧
      (∀ o ∈ os, o.string_key ≠ [] → (map_find m' o.string_key).isSome) := by
  intro os
  induction os with
  | nil =>
    intro m nf m' nf' h
    simp only [store_options, Except.ok.injEq, Prod.mk.injEq] at h
    obtain ⟨rfl, _⟩ := h
    exact ⟨fun k hk => hk, fun o ho => by simp at ho⟩
  | cons o os ih =>
    intro m nf m' nf' h
    simp only [store_options] at h
    split at h
    · rename_i hk
      have hk' : o.string_key = [] := by simpa using hk
      obtain ⟨h1, h2⟩ := ih _ _ _ _ h
      refine ⟨h1, fun x hx hne => ?_⟩
      rcases List.mem_cons.mp hx with rfl | hx
      · exact absurd hk' hne
      · exact h2 x hx hne
    · simp only [List.not_mem_nil, if_false] at h
      cases hf : find desc o.string_key false false false with
      | error e => rw [hf] at h; cases h
      | ok d =>
        rw [hf] at h
        simp only at h
        split at h
        · cases h
        · rename_i value hv
          obtain ⟨h1, h2⟩ := ih _ _ _ _ h
          have hself : (map_find m' o.string_key).isSome :=
            h1 _ (by rw [map_find_map_assign]; simp)
          refine ⟨fun k hk => h1 k ?_, fun x hx hne => ?_⟩
          · rw [map_find_map_assign]
            split
            · rfl
            · exact hk
          · rcases List.mem_cons.mp hx with rfl | hx
            · exact hself
            · exact h2 x hx hne

theorem store_defaults_keys :
    ∀ (ds : List option_description) (m : List (Str × variable_value)) (k : Str),
      (map_find m k).isSome → (map_find (store_defaults ds m) k).isSome := by
  intro ds
  induction ds with
  | nil => intro m k h; exact h
  | cons d ds ih =>
    intro m k h
    simp only [store_defaults]
    split
    · exact ih _ _ h
    · split
      · split
        · apply ih
          rw [map_find_map_assign]
          split
          · rfl
          · exact h
        · exact ih _ _ h
      · exact ih _ _ h

/-- When `store` succeeds on parsed options among which one has the key
`help`, the variables map counts `help`. -/
theorem store_counts_help (parsed : List basic_option) (var_map : variables_map)
    (hs : store parsed desc { m := [], m_final := [] } = .ok var_map)
    (hh : ∃ o ∈ parsed, o.string_key = "help".toList) :
    var_map.count "help".toList ≠ 0 := by
  simp only [store] at hs
  cases hso : store_options desc [] parsed [] [] with
  | error e => rw [hso] at hs; cases hs
  | ok p =>
    obtain ⟨m, nf⟩ := p
    rw [hso] at hs
    cases hs
    obtain ⟨o, ho, hk⟩ := hh
    have h1 := (store_options_keys parsed [] [] m nf hso).2 o ho (by rw [hk]; decide)
    rw [hk] at h1
    have h2 := store_defaults_keys desc m _ h1
    simp only [variables_map.count, h2, if_true]
    decide

theorem has_help_append_left {l : List basic_option} (l' : List basic_option)
    (h : has_help l) : has_help (l ++ l') := by
  obtain ⟨o, ho, hk⟩ := h
  exact ⟨o, List.mem_append_left _ ho, hk⟩

theorem has_help_cons {l : List basic_option} (o : basic_option) (h : has_help l) :
    has_help (o :: l) := by
  obtain ⟨x, hx, hk⟩ := h
  exact ⟨x, List.mem_cons_of_mem _ hx, hk⟩

theorem try_style_parsers_extends :
    ∀ (ps : List style_parser_fn) (args : List Str) (res : List basic_option) (b : Bool)
      (args' : List Str) (res' : List basic_option),
      try_style_parsers desc ps args res = .ok (b, args', res') → ∃ next, res' = res ++ next := by
  intro ps
  induction ps with
  | nil =>
    intro args res b args' res' h
    simp only [try_style_parsers, Except.ok.injEq, Prod.mk.injEq] at h
    exact ⟨[], by simp [h.2.2]⟩
  | cons p ps ih =>
    intro args res b args' res' h
    simp only [try_style_parsers] at h
    cases hp : p args with
    | error e => rw [hp] at h; cases h
    | ok x =>
      obtain ⟨next, args1⟩ := x
      rw [hp] at h
      simp only at h
      cases hfin : (if next.isEmpty then (Except.ok ([], args1) : Except po_error _)
          else finish_options desc next args1) with
      | error e => rw [hfin] at h; cases h
      | ok y =>
        obtain ⟨next', args2⟩ := y
        rw [hfin] at h
        simp only at h
        split at h
        · simp only [Except.ok.injEq, Prod.mk.injEq] at h
          exact ⟨next', h.2.2.symm⟩
        · obtain ⟨n2, hn2⟩ := ih _ _ _ _ _ h
          exact ⟨next' ++ n2, by rw [hn2, List.append_assoc]⟩

theorem run_loop_keeps_help :
    ∀ (fuel : Nat) (args : List Str) (res out : List basic_option),
      run_loop desc fuel args res = some (.ok out) → has_help res → has_help out := by
  intro fuel
  induction fuel with
  | zero =>
    intro args res out h hh
    cases args with
    | nil => simp only [run_loop, Option.some.injEq, Except.ok.injEq] at h; exact h ▸ hh
    | cons a r => simp [run_loop] at h
  | succ fuel ih =>
    intro args res out h hh
    cases args with
    | nil => simp only [run_loop, Option.some.injEq, Except.ok.injEq] at h; exact h ▸ hh
    | cons a r =>
      simp only [run_loop] at h
      cases ht : try_style_parsers desc (style_parsers desc) (a :: r) res with
      | error e => rw [ht] at h; cases h
      | ok x =>
        obtain ⟨b, args', res'⟩ := x
        obtain ⟨next, rfl⟩ := try_style_parsers_extends _ _ _ _ _ _ ht
        rw [ht] at h
        cases b with
        | true => exact ih _ _ _ h (has_help_append_left _ hh)
        | false =>
          exact ih _ _ _ h (has_help_append_left _ (has_help_append_left _ hh))

theorem try_style_parsers_help (h : Str) (hh : help_token h = true) (r : List Str)
    (res : List basic_option) :
    try_style_parsers desc (style_parsers desc) (h :: r) res =
      .ok (true, r, res ++ [help_option h]) := by
  have hlen : ¬ r.length = r.length + 1 := by omega
  simp only [help_token, Bool.decide_or, Bool.or_eq_true, decide_eq_true_eq] at hh
  rcases hh with rfl | rfl
  · have hp : parse_long_option (['-', '-', 'h', 'e', 'l', 'p'] :: r) =
        .ok ([{ string_key := ['h', 'e', 'l', 'p'], position_key := -1, value := [],
                original_tokens := [['-', '-', 'h', 'e', 'l', 'p']] }], r) := rfl
    have hf : find_nothrow desc ['h', 'e', 'l', 'p'] true false false =
        .ok (some { long_names := [['h', 'e', 'l', 'p'], ['-', 'h']], short_name := [],
                    semantic := .untyped_value true }) := rfl
    simp [try_style_parsers, style_parsers, hp, finish_options, finish_option, hf, m_style,
      value_semantic.min_tokens, value_semantic.max_tokens, option_description.key,
      grab_tokens, help_option, hlen]
  · have hp1 : parse_long_option (['-', 'h'] :: r) = .ok ([], ['-', 'h'] :: r) := rfl
    have hp2 : parse_short_option desc (['-', 'h'] :: r) =
        .ok ([{ string_key := ['-', 'h'], position_key := -1, value := [],
                original_tokens := [['-', 'h']] }], r) := rfl
    have hf : find_nothrow desc ['-', 'h'] true false false =
        .ok (some { long_names := [['h', 'e', 'l', 'p'], ['-', 'h']], short_name := [],
                    semantic := .untyped_value true }) := rfl
    simp [try_style_parsers, style_parsers, hp1, hp2, finish_options, finish_option, hf,
      m_style, value_semantic.min_tokens, value_semantic.max_tokens, option_description.key,
      grab_tokens, help_option, hlen]

/-- When the outer loop succeeds on arguments in which a help flag stands in
option position, the options it returns include `help`. -/
theorem run_loop_reads_help (h : Str) (post : List Str) (hh : help_token h = true) :
    ∀ (fuel : Nat) (pre : List Str) (res out : List basic_option),
      ['-', '-'] ∉ pre → (∀ a, pre.getLast? = some a → awaits_value a = false) →
      run_loop desc fuel (pre ++ h :: post) res = some (.ok out) → has_help out := by
  intro fuel
  induction fuel with
  | zero =>
    intro pre res out _ _ hrun
    cases pre <;> simp [run_loop] at hrun
  | succ fuel ih =>
    intro pre res out hterm hlast hrun
    cases pre with
    | nil =>
      rw [List.nil_append, run_loop_of_consumed (try_style_parsers_help h hh post res)] at hrun
      exact run_loop_keeps_help _ _ _ _ hrun
        ⟨help_option h, by simp, rfl, rfl⟩
    | cons a pre' =>
      have hterm' : ['-', '-'] ∉ pre' := fun hm => hterm (List.mem_cons_of_mem _ hm)
      have ha : a ≠ ['-', '-'] := fun hm => hterm (by simp [hm])
      have hlast' : ∀ b, pre'.getLast? = some b → awaits_value b = false := by
        intro b hb
        apply hlast
        cases pre' with
        | nil => simp at hb
        | cons c cs => simpa using hb
      rw [List.cons_append] at hrun
      cases hp : positional_token a with
      | true =>
        rw [run_loop_of_positional _ res hp] at hrun
        exact ih _ _ _ hterm' hlast' hrun
      | false =>
        rcases try_style_parsers_option a hp ha (pre' ++ h :: post) res with ⟨e, he⟩ |
          ⟨res', h'⟩ | ⟨res', t', ts, hts, haw, h'⟩
        · rw [run_loop_of_error he] at hrun; cases hrun
        · rw [run_loop_of_consumed h'] at hrun
          exact ih _ _ _ hterm' hlast' hrun
        · rw [run_loop_of_consumed h'] at hrun
          cases pre' with
          | nil =>
            have := hlast a rfl
            rw [this] at haw
            cases haw
          | cons b pre'' =>
            simp only [List.cons_append, List.cons.injEq] at hts
            obtain ⟨_, rfl⟩ := hts
            have hterm'' : ['-', '-'] ∉ pre'' := fun hm => hterm' (List.mem_cons_of_mem _ hm)
            have hlast'' : ∀ c, pre''.getLast? = some c → awaits_value c = false := by
              intro c hc
              apply hlast'
              cases pre'' with
              | nil => simp at hc
              | cons d ds => simpa using hc
            exact ih _ _ _ hterm'' hlast'' hrun

theorem take_more_keeps :
    ∀ (n : Nat) (opt : basic_option) (rest : List basic_option),
      (take_more n opt rest).1.string_key = opt.string_key ∧
      (take_more n opt rest).1.position_key = opt.position_key ∧
      (has_help rest → has_help (take_more n opt rest).2) := by
  intro n
  induction n with
  | zero => intro opt rest; exact ⟨rfl, rfl, fun h => h⟩
  | succ n ih =>
    intro opt rest
    cases rest with
    | nil => exact ⟨rfl, rfl, fun h => h⟩
    | cons opt2 rest =>
      simp only [take_more]
      split
      · exact ⟨rfl, rfl, fun h => h⟩
      · split
        · exact ⟨rfl, rfl, fun h => h⟩
        · rename_i hk _
          obtain ⟨h1, h2, h3⟩ := ih
            { opt with value := opt.value ++ opt2.value.take 1,
                       original_tokens := opt.original_tokens ++ opt2.original_tokens.take 1 }
            rest
          refine ⟨h1, h2, fun hh => h3 ?_⟩
          obtain ⟨o, ho, hko, hpo⟩ := hh
          rcases List.mem_cons.mp ho with rfl | ho
          · have : o.string_key = [] := by simpa using hk
            rw [this] at hko
            cases hko
          · exact ⟨o, ho, hko, hpo⟩

theorem multitoken_pass_keeps_help :
    ∀ (fuel : Nat) (l out : List basic_option),
      multitoken_pass desc fuel l = some (.ok out) → has_help l → has_help out := by
  intro fuel
  induction fuel with
  | zero =>
    intro l out h hh
    cases l with
    | nil => obtain ⟨o, ho, _⟩ := hh; simp at ho
    | cons a r => simp [multitoken_pass] at h
  | succ fuel ih =>
    intro l out h hh
    cases l with
    | nil => obtain ⟨o, ho, _⟩ := hh; simp at ho
    | cons opt rest =>
      have hcont : ∀ (o : basic_option) (rest' : List basic_option),
          o.string_key = opt.string_key → o.position_key = opt.position_key →
          (has_help rest → has_help rest') →
          (match multitoken_pass desc fuel rest' with
            | none => none
            | some (.error e) => some (.error e)
            | some (.ok r) => some (Except.ok (o :: r))) = some (.ok out) → has_help out := by
        intro o rest' hk hp hrest hm
        cases hmp : multitoken_pass desc fuel rest' with
        | none => rw [hmp] at hm; cases hm
        | some x =>
          rw [hmp] at hm
          cases x with
          | error e => cases hm
          | ok r =>
            simp only [Option.some.injEq, Except.ok.injEq] at hm
            subst hm
            obtain ⟨x, hx, hkx, hpx⟩ := hh
            rcases List.mem_cons.mp hx with rfl | hx
            · exact ⟨o, by simp, by rw [hk, hkx], by rw [hp, hpx]⟩
            · exact has_help_cons _ (ih _ _ hmp (hrest ⟨x, hx, hkx, hpx⟩))
      simp only [multitoken_pass] at h
      split at h
      · exact hcont _ _ rfl rfl (fun x => x) h
      · cases hf : find_nothrow desc opt.string_key m_style.allow_guessing
            m_style.long_case_insensitive m_style.short_case_insensitive with
        | error e => rw [hf] at h; cases h
        | ok d =>
          rw [hf] at h
          cases d with
          | none => exact hcont _ _ rfl rfl (fun x => x) h
          | some xd =>
            simp only at h
            split at h
            · obtain ⟨h1, h2, h3⟩ :=
                take_more_keeps (xd.semantic.max_tokens - opt.value.length) opt rest
              exact hcont _ _ h1 h2 h3 h
            · exact hcont _ _ rfl rfl (fun x => x) h

theorem assign_position_keys_keeps_help :
    ∀ (l : List basic_option) (k : Int), has_help l → has_help (assign_position_keys k l) := by
  intro l
  induction l with
  | nil => intro k h; exact h
  | cons o l ih =>
    intro k h
    obtain ⟨x, hx, hkx, hpx⟩ := h
    simp only [assign_position_keys]
    rcases List.mem_cons.mp hx with rfl | hx
    · have hne : ¬ x.string_key.isEmpty = true := by rw [hkx]; decide
      rw [if_neg hne]
      exact ⟨x, by simp, hkx, hpx⟩
    · split
      · exact has_help_cons _ (ih _ ⟨x, hx, hkx, hpx⟩)
      · exact has_help_cons _ (ih _ ⟨x, hx, hkx, hpx⟩)

theorem name_positionals_keeps_help :
    ∀ (l out : List basic_option) (n : Nat),
      name_positionals pos_desc n l = .ok out → has_help l → has_help out := by
  intro l
  induction l with
  | nil => intro out n _ h; obtain ⟨o, ho, _⟩ := h; simp at ho
  | cons o l ih =>
    intro out n h hh
    obtain ⟨x, hx, hkx, hpx⟩ := hh
    simp only [name_positionals] at h
    split at h
    · rename_i hpk
      split at h
      · cases h
      · cases hrec : name_positionals pos_desc (n + 1) l with
        | error e => rw [hrec] at h; cases h
        | ok r =>
          rw [hrec] at h
          simp only [Except.ok.injEq] at h
          subst h
          rcases List.mem_cons.mp hx with rfl | hx
          · exact absurd hpx hpk
          · exact has_help_cons _ (ih _ _ hrec ⟨x, hx, hkx, hpx⟩)
    · cases hrec : name_positionals pos_desc n l with
      | error e => rw [hrec] at h; cases h
      | ok r =>
        rw [hrec] at h
        simp only [Except.ok.injEq] at h
        subst h
        rcases List.mem_cons.mp hx with rfl | hx
        · exact ⟨x, by simp, hkx, hpx⟩
        · exact has_help_cons _ (ih _ _ hrec ⟨x, hx, hkx, hpx⟩)

/-- Claim C1, amended: for every argument vector in which a help flag (`--help`
or `-h`) stands in option position, that is, with no `--` before it and not
directly after an option that awaits its value, and on which parsing succeeds,
`main` writes the usage text to standard output, does not run the viewer and
returns 0.  (Other arguments can make parsing fail, and then `main` returns
1.) -/
theorem help_exits_zero_when_parsed (pre : List Str) (h : Str) (post : List Str)
    (win : Window) (var_map : variables_map) (hh : help_token h = true)
    (hterm : ['-', '-'] ∉ pre)
    (hlast : ∀ a, pre.getLast? = some a → awaits_value a = false)
    (hparse : parse (pre ++ h :: post) = some (.ok var_map)) :
    main (pre ++ h :: post) win = some help_run := by
  apply main_of_help win hparse
  simp only [parse, run] at hparse
  cases h1 : run_loop desc (pre ++ h :: post).length (pre ++ h :: post) [] with
  | none => rw [h1] at hparse; cases hparse
  | some x =>
    rw [h1] at hparse
    cases x with
    | error e => cases hparse
    | ok raw =>
      simp only at hparse
      have hraw := run_loop_reads_help h post hh _ pre [] raw hterm hlast h1
      cases h2 : multitoken_pass desc raw.length raw with
      | none => rw [h2] at hparse; cases hparse
      | some y =>
        rw [h2] at hparse
        cases y with
        | error e => cases hparse
        | ok raw2 =>
          simp only at hparse
          have hraw2 := multitoken_pass_keeps_help _ _ _ h2 hraw
          cases h3 : name_positionals pos_desc 0 (assign_position_keys 0 raw2) with
          | error e => rw [h3] at hparse; cases hparse
          | ok parsed =>
            rw [h3] at hparse
            simp only [Option.some.injEq] at hparse
            obtain ⟨o, ho, hk, _⟩ := name_positionals_keeps_help _ _ _ h3
              (assign_position_keys_keeps_help _ _ hraw2)
            exact store_counts_help parsed var_map hparse ⟨o, ho, hk⟩

theorem help_exits_zero_when_parsed_witness :
    main (["tree.json".toList] ++ "-h".toList :: []) (viewer_returning 7) = some help_run :=
  help_exits_zero_when_parsed ["tree.json".toList] "-h".toList [] (viewer_returning 7)
    { m := [("path".toList, { v := .path "tree.json".toList, m_defaulted := false }),
            ("help".toList, { v := .string [], m_defaulted := false })],
      m_final := ["path".toList, "help".toList] }
    (by decide) (by decide) (by decide) rfl

/-! ## `path` supplied twice: the occurrences one after the other -/

end Hierview
